import Mathlib

/-!
Verification of the arbitrary-precision non-negative integer engine
(`integer.hpp`): little-endian base-10000 limb vectors (`uint16_t` limbs),
schoolbook / Karatsuba / FFT multiplication dispatch, long division with a
bounded digit-correction loop, decimal codec, comparison, and the FFT
twiddle-root cache.

Limb vectors are embedded as `List ℕ` (least-significant limb first).  The
`uint16_t` cast that the C++ performs on every limb write is kept explicitly
as reduction modulo `2^16`; `uint64_t` accumulators are embedded as `ℕ`
wherever the source's own guards make 64-bit overflow impossible (the
relevant bound arguments appear in the proofs), and as explicit reduction
modulo `2^64` where wraparound is reachable (the `uint64_t` conversion).
-/

namespace Integer

/-- Radix of the limb representation: `BASE = 1e4` in the source. -/
def BASE : ℕ := 10000

/-- Size of the `value_t = uint16_t` limb type: limb writes truncate mod `2^16`. -/
def W16 : ℕ := 65536

/-- Size of the `uint64_t` accumulator type. -/
def W64 : ℕ := 2 ^ 64

/-- Number of decimal digits per limb (`SECTION = 4`). -/
def SECTION : ℕ := 4

/-- `KARATSUBA_CUTOFF = 150`. -/
def KARATSUBA_CUTOFF : ℕ := 150

/-- `INTEGER_FFT_CUTOFF = 1500`. -/
def INTEGER_FFT_CUTOFF : ℕ := 1500

/-- `U64_BOUND = numeric_limits. uint64. max - BASE * BASE`. -/
def U64_BOUND : ℕ := (W64 - 1) - BASE * BASE

/-- `BASE_OVERFLOW_CUTOFF = numeric_limits. uint64. max / BASE`. -/
def BASE_OVERFLOW_CUTOFF : ℕ := (W64 - 1) / BASE

/-- Generic little-endian evaluation of a digit list in a given base; the
numeric value denoted by a limb vector is `valb BASE`. -/
def valb (base : ℕ) : List ℕ → ℕ
  | [] => 0
  | x :: xs => x + base * valb base xs

/-- Numeric value denoted by a limb vector (little-endian, base `10000`). -/
def val (l : List ℕ) : ℕ := valb BASE l

/-- Removes the maximal run of trailing (most-significant) zeros from a limb
vector.  This is the loop body of `trim_check`, which pops `values.back()`
while it is zero. -/
def stripTrail : List ℕ → List ℕ
  | [] => []
  | d :: ds =>
    match stripTrail ds with
    | [] => if d = 0 then [] else [d]
    | r => d :: r

/-- `integer::trim_check`: pop trailing zero limbs (keeping at least one
limb), and replace an empty vector by the single limb `0`. -/
def trim_check (l : List ℕ) : List ℕ :=
  match stripTrail l with
  | [] => [0]
  | r => r

/-- Representation invariant maintained by every public operation: the vector
is fixed by `trim_check` (non-empty, most-significant limb non-zero unless the
vector is `[0]`) and every limb lies in `[0, BASE)`. -/
def Norm (l : List ℕ) : Prop := trim_check l = l ∧ ∀ x ∈ l, x < BASE

instance (l : List ℕ) : Decidable (Norm l) := by
  unfold Norm; infer_instance

/-- `integer::checked_add(position, add)`: grow the vector with zero fill so
that `position` is in range, then add into that limb.  The limb write is a
`static_cast` to `value_t = uint16_t`, hence the reduction mod `2^16`.  No
carry is propagated. -/
def checked_add (l : List ℕ) (position amount : ℕ) : List ℕ :=
  let g := l ++ List.replicate (position + 1 - l.length) 0
  g.set position ((g.getD position 0 + amount) % W16)

/-- `integer::init(x)`: repeatedly emit `x mod BASE` and divide by `BASE`
(do-while, so `0` yields the single limb `0`). -/
def init (x : ℕ) : List ℕ :=
  x % BASE :: (if h : x / BASE = 0 then [] else init (x / BASE))
decreasing_by
  exact Nat.div_lt_self (Nat.pos_of_ne_zero (fun hx => h (by simp [hx]))) (by norm_num [BASE])

/-- Tail phase of `operator+=` once the right operand is exhausted but a carry
of `1` is pending: propagate the carry through the remaining limbs. -/
def add_carry1 : List ℕ → List ℕ
  | [] => [(0 + 1) % W16]
  | x :: xs =>
    let t := (x + 1) % W16
    if t ≥ BASE then (t - BASE) :: add_carry1 xs else t :: xs

/-- Loop of `integer::operator+=`: runs while the right operand has limbs or a
carry is pending; each write is cast to `value_t` and reduced below `BASE`
with a carry of at most one. -/
def add_loop : List ℕ → List ℕ → Bool → List ℕ
  | xs, [], false => xs
  | xs, [], true => add_carry1 xs
  | xs, y :: ys, c =>
    let t := (xs.headD 0 + y + (if c then 1 else 0)) % W16
    if t ≥ BASE then (t - BASE) :: add_loop xs.tail ys true
    else t :: add_loop xs.tail ys false

/-- `integer::operator+` (via `operator+=`, which ends with `trim_check`). -/
def add (a b : List ℕ) : List ℕ := trim_check (add_loop a b false)

/-- Tail phase of `operator-=` once the right operand is exhausted but a
borrow of `1` is pending. -/
def sub_borrow1 : List ℕ → List ℕ
  | [] => []
  | x :: xs =>
    if x < 1 then ((x + BASE - 1) % W16) :: sub_borrow1 xs
    else ((x - 1) % W16) :: xs

/-- Loop of `integer::operator-=` (precondition `a ≥ b` is the caller's
responsibility; the theorems carry it as `val b ≤ val a`). -/
def sub_loop : List ℕ → List ℕ → Bool → List ℕ
  | xs, [], false => xs
  | xs, [], true => sub_borrow1 xs
  | xs, y :: ys, c =>
    let s := (y + (if c then 1 else 0)) % W16
    let x := xs.headD 0
    if x < s then ((x + BASE - s) % W16) :: sub_loop xs.tail ys true
    else ((x - s) % W16) :: sub_loop xs.tail ys false

/-- `integer::operator-` (via `operator-=`, which ends with `trim_check`). -/
def sub (a b : List ℕ) : List ℕ := trim_check (sub_loop a b false)

/-- Limb-by-limb comparison from the most-significant end (the `for` loop of
`integer::compare` on equal-length vectors), acting on reversed vectors. -/
def cmpMSD : List ℕ → List ℕ → ℤ
  | x :: xs, y :: ys => if x ≠ y then (if x < y then -1 else 1) else cmpMSD xs ys
  | _, _ => 0

/-- `integer::compare`: by limb count first, then limbs from most- to
least-significant; returns `-1`, `0` or `+1`. -/
def compare (a b : List ℕ) : ℤ :=
  if a.length ≠ b.length then (if a.length < b.length then -1 else 1)
  else cmpMSD a.reverse b.reverse

/-- `operator<`. -/
def ltI (a b : List ℕ) : Prop := compare a b < 0

/-- `operator>`. -/
def gtI (a b : List ℕ) : Prop := compare a b > 0

/-- `operator<=`. -/
def leI (a b : List ℕ) : Prop := compare a b ≤ 0

/-- `operator>=`. -/
def geI (a b : List ℕ) : Prop := compare a b ≥ 0

/-- `operator==`. -/
def eqI (a b : List ℕ) : Prop := compare a b = 0

instance (a b : List ℕ) : Decidable (ltI a b) := by unfold ltI; infer_instance
instance (a b : List ℕ) : Decidable (gtI a b) := by unfold gtI; infer_instance
instance (a b : List ℕ) : Decidable (leI a b) := by unfold leI; infer_instance
instance (a b : List ℕ) : Decidable (geI a b) := by unfold geI; infer_instance
instance (a b : List ℕ) : Decidable (eqI a b) := by unfold eqI; infer_instance

/-- `integer::operator<<(p)`: prepend `p` zero limbs, then `trim_check`. -/
def shl (a : List ℕ) (p : ℕ) : List ℕ := trim_check (List.replicate p 0 ++ a)

/-- `integer::range(a, b)`: the half-open limb window `[a, b)`, re-normalized
by `trim_check`. -/
def rangeI (l : List ℕ) (a b : ℕ) : List ℕ := trim_check ((l.drop a).take (b - a))

/-- `integer::range(a)` with the default second argument (`b = values.size()`),
i.e. all limbs from position `a` up. -/
def range1 (l : List ℕ) (a : ℕ) : List ℕ := trim_check (l.drop a)

/-- Per-limb digit emission of `integer::to_string`: each limb emits
`SECTION = 4` decimal digits, least significant first (`v % 10` followed by
`v /= 10`, four times). -/
def limbDigits (v : ℕ) : List ℕ := [v % 10, v / 10 % 10, v / 100 % 10, v / 1000 % 10]

/-- Digit emission of `to_string` over the whole limb vector. -/
def limbsDigits : List ℕ → List ℕ
  | [] => []
  | v :: vs => limbDigits v ++ limbsDigits vs

/-- `integer::to_string`: emit the digits of every limb least-significant
first, strip trailing `'0'` characters down to at least one, then reverse.
The result models the decimal string as a digit list, most significant
first. -/
def to_string (l : List ℕ) : List ℕ :=
  (match limbsDigits l with
   | [] => ([] : List ℕ)
   | ds => match stripTrail ds with
           | [] => [0]
           | r => r).reverse

/-- Packing loop of `integer(const string &)` acting on the reversed digit
string (the source scans characters right to left): each group of `SECTION = 4`
digits becomes one limb `d0 + 10·d1 + 100·d2 + 1000·d3`. -/
def packLimbs : List ℕ → List ℕ
  | [] => []
  | [a] => [a]
  | [a, b] => [a + 10 * b]
  | [a, b, c] => [a + 10 * b + 100 * c]
  | a :: b :: c :: d :: rest => (a + 10 * b + 100 * c + 1000 * d) :: packLimbs rest

/-- `integer(const string &)` after the assertion check: the vector is
pre-sized to `max(⌈len/4⌉, 1)` zero limbs (so the empty string denotes zero),
filled by `packLimbs` on the reversed digit string, and `trim_check`ed. -/
def fromDigits (s : List ℕ) : List ℕ :=
  trim_check (if s = [] then [0] else packLimbs s.reverse)

/-- `integer(const string &)` including its `assert('0' <= c && c <= '9')`:
a character outside `'0'..'9'` aborts, modelled as `none`.  The string is
modelled as its list of digit values, most significant first. -/
def fromString (s : List ℕ) : Option (List ℕ) :=
  if s.all (· < 10) then some (fromDigits s) else none

/-- `integer::operator uint64_t`: Horner evaluation from the most-significant
limb in a `uint64_t` accumulator, hence modulo `2^64`. -/
def to_uint64 (l : List ℕ) : ℕ :=
  l.foldr (fun v acc => (BASE * acc + v) % W64) 0

/-- Product terms of one output column of the schoolbook multiplication:
`a[i] * b[k-i]` for `i` from `max(0, k-(m-1))` to `min(n-1, k)`, in increasing
`i` order (the index set is written as a filter over `i < n`). -/
def prods (a b : List ℕ) (k : ℕ) : List ℕ :=
  (List.range a.length).filterMap
    (fun i => if i ≤ k ∧ k - i < b.length then some (a.getD i 0 * b.getD (k - i) 0) else none)

/-- Inner accumulation of one schoolbook column: running 64-bit `value` plus
`carry`, with the partial reduction that fires whenever `value` exceeds
`U64_BOUND` (this is what keeps the `uint64_t` accumulator from overflowing). -/
def sb_col : List ℕ → ℕ × ℕ → ℕ × ℕ
  | [], vc => vc
  | p :: ps, (v, c) =>
    let v' := v + p
    if U64_BOUND < v' then sb_col ps (v' % BASE, c + v' / BASE)
    else sb_col ps (v', c)

/-- Carry flush phase shared by the multiplication loops: once all input
positions are consumed the loops keep emitting `carry mod BASE` while the
carry is positive. -/
def carry_flush : ℕ → List ℕ
  | 0 => []
  | c + 1 => ((c + 1) % BASE) :: carry_flush ((c + 1) / BASE)
decreasing_by
  exact Nat.div_lt_self (Nat.succ_pos c) (by norm_num [BASE])

/-- Column loop of the schoolbook multiplication path of `operator*`: for each
column, `value = carry % BASE`, `carry /= BASE`, accumulate the column's
products through `sb_col`, close the column with `carry += value / BASE`,
`value %= BASE`, and write `value`; after the last column, flush the carry. -/
def sb_main : List (List ℕ) → ℕ → List ℕ
  | [], carry => carry_flush carry
  | ps :: rest, carry =>
    let vc := sb_col ps (carry % BASE, carry / BASE)
    (vc.1 % BASE) :: sb_main rest (vc.2 + vc.1 / BASE)

/-- Schoolbook path of `operator*` (taken when `n ≤ KARATSUBA_CUTOFF`):
columns `0 .. n+m-2` followed by the carry flush, then `trim_check`. -/
def sb (a b : List ℕ) : List ℕ :=
  trim_check (sb_main ((List.range (a.length + b.length - 1)).map (prods a b)) 0)

/-- Carry normalization of the FFT path of `operator*`: walk the convolution
output least-significant first, writing `value mod BASE` and carrying
`value / BASE`, continuing past the end while the carry is positive. -/
def carry_norm : List ℕ → ℕ → List ℕ
  | [], c => carry_flush c
  | x :: xs, c => ((x + c) % BASE) :: carry_norm xs ((x + c) / BASE)

end Integer

namespace FFT

/-- Discrete convolution of two limb sequences, exactly as computed by the
brute-force branch of `FFT::multiply` (`result[i + j] += left[i] * right[j]`,
output size `n + m - 1`, `circular = false` so the index never wraps).

The source's `FFT::multiply` additionally dispatches, by a cost model, to a
floating-point FFT (with a squaring specialization when both operands are the
same sequence); every branch computes this same discrete convolution.  The
floating-point branch is modelled by its exact mathematical value: per the
spec's numerical rationale, round-to-nearest of the final real part yields the
exact convolution coefficient for all sizes this engine dispatches to the FFT.
Floating-point rounding itself is outside this shallow embedding. -/
def multiply (left right : List ℕ) : List ℕ :=
  (List.range (left.length + right.length - 1)).map (fun k => (Integer.prods left right k).sum)

end FFT

namespace Integer

lemma stripTrail_length_le (l : List ℕ) : (stripTrail l).length ≤ l.length := by
  induction l with
  | nil => simp [stripTrail]
  | cons d ds ih =>
    simp only [stripTrail]
    cases h : stripTrail ds with
    | nil => by_cases hd : d = 0 <;> simp [hd]
    | cons r rs =>
      rw [h] at ih
      simpa using Nat.succ_le_succ ih

lemma trim_check_length_le (l : List ℕ) : (trim_check l).length ≤ max l.length 1 := by
  unfold trim_check
  cases h : stripTrail l with
  | nil => simp
  | cons r rs =>
    have := stripTrail_length_le l
    rw [h] at this
    simp only [List.length_cons] at this ⊢
    omega

lemma rangeI_length_le (l : List ℕ) (a b : ℕ) : (rangeI l a b).length ≤ max (b - a) 1 := by
  unfold rangeI
  calc (trim_check ((l.drop a).take (b - a))).length
      ≤ max ((l.drop a).take (b - a)).length 1 := trim_check_length_le _
    _ ≤ max (b - a) 1 := by
        simp only [List.length_take]
        omega

lemma add_carry1_length (l : List ℕ) : (add_carry1 l).length ≤ l.length + 1 := by
  induction l with
  | nil => simp [add_carry1]
  | cons x xs ih =>
    simp only [add_carry1]
    split
    · simpa using Nat.succ_le_succ ih
    · simp

lemma add_loop_length (ys xs : List ℕ) (c : Bool) :
    (add_loop xs ys c).length ≤ max xs.length ys.length + 1 := by
  induction ys generalizing xs c with
  | nil =>
    cases c with
    | false => simp [add_loop]
    | true =>
      have := add_carry1_length xs
      simp only [add_loop]
      omega
  | cons y ys ih =>
    cases xs with
    | nil =>
      have h1 := ih ([] : List ℕ).tail true
      have h2 := ih ([] : List ℕ).tail false
      simp only [add_loop, List.tail_nil] at h1 h2 ⊢
      split <;> split <;> simp only [List.length_cons, List.length_nil] at * <;> omega
    | cons x xt =>
      have h1 := ih xt true
      have h2 := ih xt false
      simp only [add_loop, List.tail_cons]
      split <;> split <;> simp only [List.length_cons] <;> omega

lemma add_length (a b : List ℕ) : (add a b).length ≤ max a.length b.length + 1 := by
  unfold add
  have h1 := trim_check_length_le (add_loop a b false)
  have h2 := add_loop_length b a false
  omega

/-- `integer::operator*`: dispatch by limb counts (after a swap making
`n ≤ m`) between the FFT path (`n > KARATSUBA_CUTOFF` and
`n + m > INTEGER_FFT_CUTOFF`), the Karatsuba path (`n > KARATSUBA_CUTOFF`),
and the schoolbook path. -/
def mul (a b : List ℕ) : List ℕ :=
  if hswap : b.length < a.length then mul b a
  else if KARATSUBA_CUTOFF < a.length ∧ INTEGER_FFT_CUTOFF < a.length + b.length then
    trim_check (carry_norm (FFT.multiply a b) 0)
  else if hk : KARATSUBA_CUTOFF < a.length then
    let mid := a.length / 2
    let a1 := rangeI a 0 mid
    let a2 := rangeI a mid a.length
    let b1 := rangeI b 0 mid
    let b2 := rangeI b mid b.length
    let x := mul a2 b2
    let z := mul a1 b1
    let y := sub (sub (mul (add a1 a2) (add b1 b2)) x) z
    add (add (shl x (2 * mid)) (shl y mid)) z
  else
    sb a b
termination_by 2 * (a.length + b.length) + (if b.length < a.length then 1 else 0)
decreasing_by
  · split <;> omega
  · have h2 := rangeI_length_le a (a.length / 2) a.length
    have h3 := rangeI_length_le b (a.length / 2) b.length
    simp only [KARATSUBA_CUTOFF] at hk
    split <;> omega
  · have h2 := rangeI_length_le a 0 (a.length / 2)
    have h3 := rangeI_length_le b 0 (a.length / 2)
    simp only [KARATSUBA_CUTOFF] at hk
    split <;> omega
  · have h1 := rangeI_length_le a 0 (a.length / 2)
    have h2 := rangeI_length_le a (a.length / 2) a.length
    have h3 := rangeI_length_le b 0 (a.length / 2)
    have h4 := rangeI_length_le b (a.length / 2) b.length
    have h5 := add_length (rangeI a 0 (a.length / 2)) (rangeI a (a.length / 2) a.length)
    have h6 := add_length (rangeI b 0 (a.length / 2)) (rangeI b (a.length / 2) b.length)
    simp only [KARATSUBA_CUTOFF] at hk
    split <;> omega

/-- Karatsuba path body of `operator*` as a standalone function (split at
`mid = n / 2`, three recursive products, recombined by limb shifts). -/
def karatsuba_mul (a b : List ℕ) : List ℕ :=
  let mid := a.length / 2
  let a1 := rangeI a 0 mid
  let a2 := rangeI a mid a.length
  let b1 := rangeI b 0 mid
  let b2 := rangeI b mid b.length
  let x := mul a2 b2
  let z := mul a1 b1
  let y := sub (sub (mul (add a1 a2) (add b1 b2)) x) z
  add (add (shl x (2 * mid)) (shl y mid)) z

/-- FFT path body of `operator*` as a standalone function: convolution of the
limb sequences followed by radix-`BASE` carry normalization. -/
def fft_mul (a b : List ℕ) : List ℕ :=
  trim_check (carry_norm (FFT.multiply a b) 0)

/-- Per-limb loop of the scalar fast path of `operator*(uint64_t)`:
`value = scalar * limb + carry`, write `value mod BASE`, carry
`value / BASE`; flush the carry after the last limb. -/
def scalar_go : List ℕ → ℕ → ℕ → List ℕ
  | [], _, c => carry_flush c
  | x :: xs, s, c => ((s * x + c) % BASE) :: scalar_go xs s ((s * x + c) / BASE)

/-- `integer::operator*(uint64_t)`: zero short-circuits; a scalar at or above
`BASE_OVERFLOW_CUTOFF` falls back to the general multiply against
`integer(scalar)`; otherwise the single-pass limb loop runs over a product
vector pre-sized to `n + 1` zero limbs (hence the zero padding), ending with
`trim_check`. -/
def mulScalar (a : List ℕ) (s : ℕ) : List ℕ :=
  if s = 0 then [0]
  else if BASE_OVERFLOW_CUTOFF ≤ s then mul a (init s)
  else
    let w := scalar_go a s 0
    trim_check (w ++ List.replicate (a.length + 1 - w.length) 0)

/-- First correction loop of `integer::div_mod`:
`while (div > 0 && scalar > chunk) { scalar -= other; div--; }`. -/
def div_loop1 (other chunk : List ℕ) : ℕ → List ℕ → ℕ × List ℕ
  | 0, s => (0, s)
  | d + 1, s =>
    if 0 < compare s chunk then div_loop1 other chunk d (sub s other)
    else (d + 1, s)

/-- Second correction loop of `integer::div_mod`, with `BASE - 1 - div` as the
structural fuel (`div < BASE - 1` exactly when the fuel is positive):
`while (div < BASE - 1 && scalar + other <= chunk) { scalar += other; div++; }`. -/
def div_loop2_go (other chunk : List ℕ) : ℕ → ℕ → List ℕ → ℕ × List ℕ
  | 0, d, s => (d, s)
  | fuel + 1, d, s =>
    if compare (add s other) chunk ≤ 0 then div_loop2_go other chunk fuel (d + 1) (add s other)
    else (d, s)

/-- Second correction loop of `integer::div_mod`. -/
def div_loop2 (other chunk : List ℕ) (d : ℕ) (s : List ℕ) : ℕ × List ℕ :=
  div_loop2_go other chunk (BASE - 1 - d) d s

/-- One iteration of the long-division loop of `integer::div_mod` at quotient
position `i`: skip if `i` is beyond the current remainder, otherwise take
`chunk = remainder.range(i)`, form the estimated digit, correct it with the
two bounded loops, subtract `scalar << i` from the remainder and add the digit
into the quotient at position `i`.  The double-precision
`integer::estimate_div` is abstracted as the arbitrary estimator `est`: the
correctness theorems are proved for every estimator, which in particular
covers the value the `double` computation produces. -/
def div_step (est : List ℕ → List ℕ → ℕ) (other : List ℕ) (i : ℕ)
    (qr : List ℕ × List ℕ) : List ℕ × List ℕ :=
  if qr.2.length ≤ i then qr
  else
    let chunk := range1 qr.2 i
    let d0 := est chunk other
    let s0 := mulScalar other d0
    let p1 := div_loop1 other chunk d0 s0
    let p2 := div_loop2 other chunk p1.1 p1.2
    let r' := trim_check (sub qr.2 (shl p2.2 i))
    let q' := if 0 < p2.1 then checked_add qr.1 i p2.1 else qr.1
    (q', r')

/-- The long-division loop of `integer::div_mod`, `i` counting down to `0`. -/
def div_go (est : List ℕ → List ℕ → ℕ) (other : List ℕ) :
    ℕ → List ℕ × List ℕ → List ℕ × List ℕ
  | 0, qr => div_step est other 0 qr
  | i + 1, qr => div_go est other i (div_step est other (i + 1) qr)

/-- `integer::div_mod(const integer &)`: long division over base `BASE`,
producing `(quotient, remainder)`, both `trim_check`ed at the end.  When
`n < m` the loop body never runs (`i` starts negative in the source). -/
def div_mod (est : List ℕ → List ℕ → ℕ) (a other : List ℕ) : List ℕ × List ℕ :=
  let qr := if a.length < other.length then (([0] : List ℕ), a)
            else div_go est other (a.length - other.length) ([0], a)
  (trim_check qr.1, trim_check qr.2)

/-- `operator/` on two integers. -/
def divI (est : List ℕ → List ℕ → ℕ) (a b : List ℕ) : List ℕ := (div_mod est a b).1

/-- `operator%` on two integers. -/
def modI (est : List ℕ → List ℕ → ℕ) (a b : List ℕ) : List ℕ := (div_mod est a b).2

/-- Loop of `integer::div_mod(uint64_t)`, scanning limbs from the most
significant: `remainder = BASE * remainder + values[i]` (a `uint64_t`
computation, hence the mod `2^64`), and when `remainder ≥ denominator` write
the digit `remainder / denominator` at position `i` and reduce. -/
def sdiv_go (a : List ℕ) (s : ℕ) : ℕ → List ℕ → ℕ → List ℕ × ℕ
  | 0, q, rem =>
    let r2 := (BASE * rem + a.getD 0 0) % W64
    if s ≤ r2 then (checked_add q 0 (r2 / s), r2 % s) else (q, r2)
  | i + 1, q, rem =>
    let r2 := (BASE * rem + a.getD (i + 1) 0) % W64
    if s ≤ r2 then sdiv_go a s i (checked_add q (i + 1) (r2 / s)) (r2 % s)
    else sdiv_go a s i q r2

/-- `integer::div_mod(uint64_t)`: a denominator at or above
`BASE_OVERFLOW_CUTOFF` falls back to the general division against
`integer(denominator)` (converting the remainder back to `uint64_t`);
otherwise the single-pass high-to-low loop with a 64-bit running remainder. -/
def divModScalar (est : List ℕ → List ℕ → ℕ) (a : List ℕ) (s : ℕ) : List ℕ × ℕ :=
  if BASE_OVERFLOW_CUTOFF ≤ s then
    ((div_mod est a (init s)).1, to_uint64 (div_mod est a (init s)).2)
  else
    let qr := sdiv_go a s (a.length - 1) [0] 0
    (trim_check qr.1, qr.2)

/-- `integer::operator/(uint64_t)`. -/
def divScalar (est : List ℕ → List ℕ → ℕ) (a : List ℕ) (s : ℕ) : List ℕ :=
  (divModScalar est a s).1

/-- `integer::operator%(uint64_t)`: the `BASE % denominator == 0` shortcut
returns `values[0] % denominator`; a large denominator falls back to general
division; otherwise a high-to-low fold with a 64-bit running remainder that is
reduced whenever it reaches `BASE_OVERFLOW_CUTOFF`, and once more at the
end. -/
def modScalar (est : List ℕ → List ℕ → ℕ) (a : List ℕ) (s : ℕ) : ℕ :=
  if BASE % s = 0 then a.headD 0 % s
  else if BASE_OVERFLOW_CUTOFF ≤ s then to_uint64 (div_mod est a (init s)).2
  else
    (a.foldr (fun v rem =>
      let r := (BASE * rem + v) % W64
      if BASE_OVERFLOW_CUTOFF ≤ r then r % s else r) 0) % s

/-- Prefix `operator++` (`*this += 1`). -/
def incI (a : List ℕ) : List ℕ := add a (init 1)

/-- Prefix `operator--` (`*this -= 1`). -/
def decI (a : List ℕ) : List ℕ := sub a (init 1)

@[simp] lemma valb_nil (b : ℕ) : valb b [] = 0 := rfl

@[simp] lemma valb_cons (b x : ℕ) (xs : List ℕ) : valb b (x :: xs) = x + b * valb b xs := rfl

@[simp] lemma val_nil : val [] = 0 := rfl

@[simp] lemma val_cons (x : ℕ) (xs : List ℕ) : val (x :: xs) = x + BASE * val xs := rfl

lemma valb_append (b : ℕ) (u v : List ℕ) :
    valb b (u ++ v) = valb b u + b ^ u.length * valb b v := by
  induction u with
  | nil => simp
  | cons x xs ih => simp [ih, pow_succ]; ring

lemma valb_replicate_zero (b p : ℕ) : valb b (List.replicate p 0) = 0 := by
  induction p with
  | zero => rfl
  | succ p ih => simp [List.replicate_succ, ih]

lemma valb_lt_pow (b : ℕ) (l : List ℕ) (h : ∀ x ∈ l, x < b) :
    valb b l < b ^ l.length := by
  induction l with
  | nil => simp
  | cons x xs ih =>
    have hx : x < b := h x (by simp)
    have hxs := ih (fun y hy => h y (by simp [hy]))
    have hb : 0 < b := Nat.pos_of_ne_zero (by rintro rfl; omega)
    calc x + b * valb b xs < b + b * valb b xs := by omega
      _ = b * (valb b xs + 1) := by ring
      _ ≤ b * b ^ xs.length := by
          exact Nat.mul_le_mul_left b hxs
      _ = b ^ (x :: xs).length := by rw [List.length_cons, pow_succ]; ring

lemma valb_pos (b : ℕ) (hb : 0 < b) (l : List ℕ) (hne : l ≠ [])
    (hl : l.getLast? ≠ some 0) : 0 < valb b l := by
  induction l with
  | nil => exact absurd rfl hne
  | cons x xs ih =>
    cases xs with
    | nil =>
      simp only [List.getLast?_singleton] at hl
      have : x ≠ 0 := fun h => hl (by rw [h])
      simp; omega
    | cons y ys =>
      have hl' : (y :: ys).getLast? ≠ some 0 := by
        rwa [List.getLast?_cons_cons] at hl
      have hpos := ih (by simp) hl'
      have hmul := Nat.mul_pos hb hpos
      simp only [valb_cons] at hmul ⊢
      omega

lemma pow_le_valb (b : ℕ) (l : List ℕ) (hne : l ≠ [])
    (hl : l.getLast? ≠ some 0) : b ^ (l.length - 1) ≤ valb b l := by
  induction l with
  | nil => exact absurd rfl hne
  | cons x xs ih =>
    cases xs with
    | nil =>
      simp only [List.getLast?_singleton] at hl
      have : x ≠ 0 := fun h => hl (by rw [h])
      simp
      omega
    | cons y ys =>
      have hl' : (y :: ys).getLast? ≠ some 0 := by
        rwa [List.getLast?_cons_cons] at hl
      have ihh := ih (by simp) hl'
      have h1 : b ^ ((y :: ys).length - 1) * b ≤ valb b (y :: ys) * b :=
        Nat.mul_le_mul_right b ihh
      rw [← pow_succ] at h1
      simp only [List.length_cons, Nat.add_sub_cancel] at h1 ⊢
      have h2 : valb b (x :: y :: ys) = x + b * valb b (y :: ys) := rfl
      rw [h2]
      have h3 : valb b (y :: ys) * b = b * valb b (y :: ys) := Nat.mul_comm _ _
      rw [h3] at h1
      omega

lemma stripTrail_eq_nil_iff (l : List ℕ) : stripTrail l = [] ↔ ∀ x ∈ l, x = 0 := by
  induction l with
  | nil => simp [stripTrail]
  | cons d ds ih =>
    simp only [stripTrail]
    cases h : stripTrail ds with
    | nil =>
      rw [h] at ih
      have hds : ∀ x ∈ ds, x = 0 := ih.mp rfl
      by_cases hd : d = 0
      · subst hd
        simp only [if_pos rfl]
        constructor
        · intro _ x hx
          rcases List.mem_cons.mp hx with rfl | hx
          · rfl
          · exact hds x hx
        · intro _; rfl
      · simp only [if_neg hd]
        constructor
        · intro hc; exact absurd hc (by simp)
        · intro hall; exact absurd (hall d (by simp)) hd
    | cons r rs =>
      rw [h] at ih
      constructor
      · intro hc; exact absurd hc (by simp)
      · intro hall
        have : ∀ x ∈ ds, x = 0 := fun x hx => hall x (by simp [hx])
        exact absurd (ih.mpr this) (by simp)

lemma valb_stripTrail (b : ℕ) (l : List ℕ) : valb b (stripTrail l) = valb b l := by
  induction l with
  | nil => rfl
  | cons d ds ih =>
    simp only [stripTrail]
    cases h : stripTrail ds with
    | nil =>
      have hvds : valb b ds = 0 := by
        rw [h] at ih
        simpa using ih.symm
      by_cases hd : d = 0 <;> simp [hd, hvds]
    | cons r rs =>
      rw [h] at ih
      simp [ih]

lemma stripTrail_getLast (l : List ℕ) : (stripTrail l).getLast? ≠ some 0 := by
  induction l with
  | nil => simp [stripTrail]
  | cons d ds ih =>
    simp only [stripTrail]
    cases h : stripTrail ds with
    | nil =>
      by_cases hd : d = 0 <;> simp [hd]
    | cons r rs =>
      rw [h] at ih
      rwa [List.getLast?_cons_cons]

lemma stripTrail_mem (l : List ℕ) (x : ℕ) (hx : x ∈ stripTrail l) : x ∈ l := by
  induction l with
  | nil => simp [stripTrail] at hx
  | cons d ds ih =>
    simp only [stripTrail] at hx
    cases h : stripTrail ds with
    | nil =>
      rw [h] at hx
      by_cases hd : d = 0
      · rw [if_pos hd] at hx
        simp at hx
      · rw [if_neg hd] at hx
        simp at hx
        simp [hx]
    | cons r rs =>
      rw [h] at hx ih
      rcases List.mem_cons.mp hx with rfl | hx
      · simp
      · simp [ih hx]

lemma stripTrail_eq_self (l : List ℕ) (hl : l.getLast? ≠ some 0) : stripTrail l = l := by
  induction l with
  | nil => rfl
  | cons d ds ih =>
    cases ds with
    | nil =>
      simp only [List.getLast?_singleton] at hl
      have hd : d ≠ 0 := fun h => hl (by rw [h])
      simp [stripTrail, hd]
    | cons y ys =>
      have hl' : (y :: ys).getLast? ≠ some 0 := by rwa [List.getLast?_cons_cons] at hl
      have hih := ih hl'
      conv_lhs => rw [stripTrail, hih]

/-- Case analysis for `trim_check`. -/
lemma trim_check_eq_cases (l : List ℕ) :
    (stripTrail l = [] ∧ trim_check l = [0]) ∨
    (stripTrail l ≠ [] ∧ trim_check l = stripTrail l) := by
  unfold trim_check
  cases h : stripTrail l with
  | nil => left; exact ⟨rfl, rfl⟩
  | cons r rs => right; exact ⟨by simp, rfl⟩

lemma trim_check_ne_nil (l : List ℕ) : trim_check l ≠ [] := by
  rcases trim_check_eq_cases l with ⟨_, h⟩ | ⟨hne, h⟩ <;> rw [h]
  · simp
  · exact hne

lemma valb_trim_check (b : ℕ) (l : List ℕ) : valb b (trim_check l) = valb b l := by
  rcases trim_check_eq_cases l with ⟨hs, h⟩ | ⟨_, h⟩ <;> rw [h]
  · have := valb_stripTrail b l
    rw [hs] at this
    simp [← this]
  · exact valb_stripTrail b l

lemma val_trim_check (l : List ℕ) : val (trim_check l) = val l := valb_trim_check BASE l

lemma trim_check_mem (l : List ℕ) (x : ℕ) (hx : x ∈ trim_check l) : x ∈ l ∨ x = 0 := by
  rcases trim_check_eq_cases l with ⟨_, h⟩ | ⟨_, h⟩ <;> rw [h] at hx
  · right; simpa using hx
  · left; exact stripTrail_mem l x hx

lemma trim_check_fix (l : List ℕ) (hl : l ≠ []) (hlast : l.getLast? ≠ some 0) :
    trim_check l = l := by
  rcases trim_check_eq_cases l with ⟨hs, _⟩ | ⟨_, h⟩
  · rw [stripTrail_eq_self l hlast] at hs
    exact absurd hs hl
  · rw [h, stripTrail_eq_self l hlast]

lemma trim_check_zero : trim_check [0] = [0] := by decide

lemma trim_check_getLast (l : List ℕ) :
    trim_check l = [0] ∨ (trim_check l).getLast? ≠ some 0 := by
  rcases trim_check_eq_cases l with ⟨_, h⟩ | ⟨_, h⟩ <;> rw [h]
  · left; rfl
  · right; exact stripTrail_getLast l

lemma trim_check_idem (l : List ℕ) : trim_check (trim_check l) = trim_check l := by
  rcases trim_check_getLast l with h | h
  · rw [h]; decide
  · exact trim_check_fix _ (trim_check_ne_nil l) h

lemma Norm_trim_check (l : List ℕ) (h : ∀ x ∈ l, x < BASE) : Norm (trim_check l) := by
  constructor
  · exact trim_check_idem l
  · intro x hx
    rcases trim_check_mem l x hx with hm | rfl
    · exact h x hm
    · simp [BASE]

lemma Norm.ne_nil {l : List ℕ} (h : Norm l) : l ≠ [] := by
  intro hl
  have := h.1
  rw [hl] at this
  exact absurd this (by decide)

lemma Norm.lt {l : List ℕ} (h : Norm l) : ∀ x ∈ l, x < BASE := h.2

lemma Norm.last {l : List ℕ} (h : Norm l) : l = [0] ∨ l.getLast? ≠ some 0 := by
  have h1 := h.1
  rcases trim_check_getLast l with h2 | h2 <;> rw [h1] at h2
  · left; exact h2
  · right; exact h2

lemma Norm_zero : Norm [0] := by decide

/-- A normalized vector is determined by its value. -/
lemma val_inj (x y : List ℕ) (hx : Norm x) (hy : Norm y) (h : val x = val y) : x = y := by
  have key : ∀ u v : List ℕ, (∀ d ∈ u, d < BASE) → (∀ d ∈ v, d < BASE) →
      u.getLast? ≠ some 0 → v.getLast? ≠ some 0 → valb BASE u = valb BASE v → u = v := by
    intro u
    induction u with
    | nil =>
      intro v _ _ _ hv hval
      cases v with
      | nil => rfl
      | cons a as =>
        exfalso
        have := valb_pos BASE (by norm_num [BASE]) (a :: as) (by simp) hv
        simp only [valb_nil] at hval
        omega
    | cons a as ih =>
      intro v hu hv hu0 hv0 hval
      cases v with
      | nil =>
        exfalso
        have := valb_pos BASE (by norm_num [BASE]) (a :: as) (by simp) hu0
        simp only [valb_nil] at hval
        omega
      | cons c cs =>
        have ha : a < BASE := hu a (by simp)
        have hc : c < BASE := hv c (by simp)
        simp only [valb_cons] at hval
        have hac : a = c := by
          have h1 : (a + BASE * valb BASE as) % BASE = a := by
            rw [Nat.add_mul_mod_self_left, Nat.mod_eq_of_lt ha]
          have h2 : (c + BASE * valb BASE cs) % BASE = c := by
            rw [Nat.add_mul_mod_self_left, Nat.mod_eq_of_lt hc]
          rw [← h1, ← h2, hval]
        subst hac
        have htail : valb BASE as = valb BASE cs := by
          have hB : (0:ℕ) < BASE := by norm_num [BASE]
          have := Nat.add_left_cancel hval
          exact Nat.eq_of_mul_eq_mul_left hB this
        cases as with
        | nil =>
          cases cs with
          | nil => rfl
          | cons e es =>
            exfalso
            have hcs0 : (e :: es).getLast? ≠ some 0 := by
              rwa [List.getLast?_cons_cons] at hv0
            have := valb_pos BASE (by norm_num [BASE]) (e :: es) (by simp) hcs0
            simp only [valb_nil] at htail
            omega
        | cons e es =>
          cases cs with
          | nil =>
            exfalso
            have has0 : (e :: es).getLast? ≠ some 0 := by
              rwa [List.getLast?_cons_cons] at hu0
            have := valb_pos BASE (by norm_num [BASE]) (e :: es) (by simp) has0
            simp only [valb_nil] at htail
            omega
          | cons f fs =>
            have has0 : (e :: es).getLast? ≠ some 0 := by
              rwa [List.getLast?_cons_cons] at hu0
            have hcs0 : (f :: fs).getLast? ≠ some 0 := by
              rwa [List.getLast?_cons_cons] at hv0
            have := ih (f :: fs) (fun d hd => hu d (by simp [hd]))
              (fun d hd => hv d (by simp [hd])) has0 hcs0 htail
            rw [this]
  rcases hx.last with rfl | hx0
  · rcases hy.last with rfl | hy0
    · rfl
    · exfalso
      have hyne := hy.ne_nil
      have := valb_pos BASE (by norm_num [BASE]) y hyne hy0
      have hv : val y = 0 := by rw [← h]; decide
      unfold val at hv
      omega
  · rcases hy.last with rfl | hy0
    · exfalso
      have hxne := hx.ne_nil
      have := valb_pos BASE (by norm_num [BASE]) x hxne hx0
      have hv : val x = 0 := by rw [h]; decide
      unfold val at hv
      omega
    · exact key x y hx.lt hy.lt hx0 hy0 h

lemma val_headD_tail (b : ℕ) (l : List ℕ) : valb b l = l.headD 0 + b * valb b l.tail := by
  cases l <;> simp

lemma headD_lt_BASE (l : List ℕ) (h : ∀ x ∈ l, x < BASE) : l.headD 0 < BASE := by
  cases l with
  | nil => norm_num [BASE]
  | cons x xs => exact h x (by simp)

lemma tail_lt_BASE (l : List ℕ) (h : ∀ x ∈ l, x < BASE) : ∀ x ∈ l.tail, x < BASE := by
  cases l with
  | nil => simp
  | cons y ys =>
    intro x hx
    exact h x (List.mem_cons_of_mem y (by simpa using hx))

lemma add_carry1_spec (l : List ℕ) (h : ∀ x ∈ l, x < BASE) :
    valb BASE (add_carry1 l) = valb BASE l + 1 ∧ ∀ x ∈ add_carry1 l, x < BASE := by
  induction l with
  | nil =>
    refine ⟨by norm_num [add_carry1, W16, BASE], ?_⟩
    intro x hx
    have : x = (0 + 1) % W16 := by simpa [add_carry1] using hx
    subst this
    norm_num [W16, BASE]
  | cons x xs ih =>
    have hx : x < BASE := h x (by simp)
    have hxs : ∀ y ∈ xs, y < BASE := fun y hy => h y (by simp [hy])
    obtain ⟨ihv, ihb⟩ := ih hxs
    have ht : (x + 1) % W16 = x + 1 :=
      Nat.mod_eq_of_lt (by simp only [BASE] at hx; simp only [W16]; omega)
    simp only [add_carry1, ht]
    by_cases hc : x + 1 ≥ BASE
    · rw [if_pos hc]
      refine ⟨?_, ?_⟩
      · simp only [valb_cons, ihv]
        simp only [BASE] at hx hc ⊢
        have hx9 : x = 9999 := by omega
        subst hx9
        ring
      · intro y hy
        rcases List.mem_cons.mp hy with h | hy
        · simp only [BASE] at h hc hx ⊢
          omega
        · exact ihb y hy
    · rw [if_neg hc]
      refine ⟨by simp only [valb_cons]; omega, ?_⟩
      intro y hy
      rcases List.mem_cons.mp hy with h | hy
      · omega
      · exact hxs y hy

lemma add_loop_spec (ys : List ℕ) : ∀ (xs : List ℕ) (c : Bool),
    (∀ x ∈ xs, x < BASE) → (∀ x ∈ ys, x < BASE) →
    valb BASE (add_loop xs ys c) =
      valb BASE xs + valb BASE ys + (if c then 1 else 0) ∧
    ∀ x ∈ add_loop xs ys c, x < BASE := by
  induction ys with
  | nil =>
    intro xs c hxs _
    cases c with
    | false =>
      refine ⟨?_, by simpa [add_loop] using hxs⟩
      simp [add_loop]
    | true =>
      obtain ⟨hv, hbs⟩ := add_carry1_spec xs hxs
      refine ⟨?_, by simpa [add_loop] using hbs⟩
      simpa [add_loop] using hv
  | cons y ys ih =>
    intro xs c hxs hys
    have hy : y < BASE := hys y (by simp)
    have hys' : ∀ x ∈ ys, x < BASE := fun x hx => hys x (by simp [hx])
    have hx0 : xs.headD 0 < BASE := headD_lt_BASE xs hxs
    have hxt : ∀ x ∈ xs.tail, x < BASE := tail_lt_BASE xs hxs
    have hcv : (if c then 1 else 0) ≤ 1 := by cases c <;> simp
    have ht : (xs.headD 0 + y + (if c then 1 else 0)) % W16
        = xs.headD 0 + y + (if c then 1 else 0) := by
      apply Nat.mod_eq_of_lt
      simp only [BASE] at hx0 hy
      simp only [W16]
      omega
    have rv1 : valb BASE (add_loop xs.tail ys true)
        = valb BASE xs.tail + valb BASE ys + 1 := by
      simpa using (ih xs.tail true hxt hys').1
    have rv0 : valb BASE (add_loop xs.tail ys false)
        = valb BASE xs.tail + valb BASE ys := by
      simpa using (ih xs.tail false hxt hys').1
    have rb1 := (ih xs.tail true hxt hys').2
    have rb0 := (ih xs.tail false hxt hys').2
    have hxsplit : valb BASE xs = xs.headD 0 + BASE * valb BASE xs.tail :=
      val_headD_tail BASE xs
    simp only [add_loop, ht]
    by_cases hc : xs.headD 0 + y + (if c then 1 else 0) ≥ BASE
    · rw [if_pos hc]
      refine ⟨?_, ?_⟩
      · simp only [valb_cons, rv1]
        rw [hxsplit]
        simp only [BASE] at hc hx0 hy hcv ⊢
        omega
      · intro z hz
        rcases List.mem_cons.mp hz with h | hz
        · simp only [BASE] at h hc hx0 hy hcv ⊢
          omega
        · exact rb1 z hz
    · rw [if_neg hc]
      push_neg at hc
      refine ⟨?_, ?_⟩
      · simp only [valb_cons, rv0]
        rw [hxsplit]
        simp only [BASE] at hc hx0 hy hcv ⊢
        omega
      · intro z hz
        rcases List.mem_cons.mp hz with h | hz
        · simp only [BASE] at h hc hx0 hy hcv ⊢
          omega
        · exact rb0 z hz

lemma add_spec (a b : List ℕ) (ha : ∀ x ∈ a, x < BASE) (hb : ∀ x ∈ b, x < BASE) :
    val (add a b) = val a + val b ∧ Norm (add a b) := by
  obtain ⟨hv, hbs⟩ := add_loop_spec b a false ha hb
  refine ⟨?_, Norm_trim_check _ hbs⟩
  unfold add val
  rw [valb_trim_check, hv]
  simp

lemma sub_borrow1_spec (l : List ℕ) (h : ∀ x ∈ l, x < BASE) (hv : 1 ≤ valb BASE l) :
    valb BASE (sub_borrow1 l) = valb BASE l - 1 ∧ ∀ x ∈ sub_borrow1 l, x < BASE := by
  induction l with
  | nil => simp at hv
  | cons x xs ih =>
    have hx : x < BASE := h x (by simp)
    have hxs : ∀ y ∈ xs, y < BASE := fun y hy => h y (by simp [hy])
    by_cases hc : x < 1
    · have hx0 : x = 0 := by omega
      subst hx0
      have hvt : 1 ≤ valb BASE xs := by
        simp only [valb_cons, BASE] at hv ⊢
        omega
      obtain ⟨ihv, ihb⟩ := ih hxs hvt
      have hm : (0 + BASE - 1) % W16 = BASE - 1 := by norm_num [BASE, W16]
      simp only [sub_borrow1, if_pos hc, hm]
      refine ⟨?_, ?_⟩
      · simp only [valb_cons, ihv]
        simp only [BASE] at hvt ⊢
        omega
      · intro z hz
        rcases List.mem_cons.mp hz with h | hz
        · simp only [BASE] at h ⊢
          omega
        · exact ihb z hz
    · have hm : (x - 1) % W16 = x - 1 := by
        apply Nat.mod_eq_of_lt
        simp only [BASE] at hx
        simp only [W16]
        omega
      simp only [sub_borrow1, if_neg hc, hm]
      refine ⟨?_, ?_⟩
      · simp only [valb_cons]
        omega
      · intro z hz
        rcases List.mem_cons.mp hz with h | hz
        · simp only [BASE] at h hx ⊢
          omega
        · exact hxs z hz

lemma sub_loop_spec (ys : List ℕ) : ∀ (xs : List ℕ) (c : Bool),
    (∀ x ∈ xs, x < BASE) → (∀ x ∈ ys, x < BASE) →
    valb BASE ys + (if c then 1 else 0) ≤ valb BASE xs →
    valb BASE (sub_loop xs ys c) =
      valb BASE xs - (valb BASE ys + (if c then 1 else 0)) ∧
    ∀ x ∈ sub_loop xs ys c, x < BASE := by
  induction ys with
  | nil =>
    intro xs c hxs _ hle
    cases c with
    | false =>
      refine ⟨?_, by simpa [sub_loop] using hxs⟩
      simp [sub_loop]
    | true =>
      obtain ⟨hv, hbs⟩ := sub_borrow1_spec xs hxs (by simpa using hle)
      refine ⟨?_, by simpa [sub_loop] using hbs⟩
      simp only [sub_loop]
      rw [hv]
      simp
  | cons y ys ih =>
    intro xs c hxs hys hle
    have hy : y < BASE := hys y (by simp)
    have hys' : ∀ x ∈ ys, x < BASE := fun x hx => hys x (by simp [hx])
    have hx0 : xs.headD 0 < BASE := headD_lt_BASE xs hxs
    have hxt : ∀ x ∈ xs.tail, x < BASE := tail_lt_BASE xs hxs
    have hcv : (if c then 1 else 0) ≤ 1 := by cases c <;> simp
    have hs : (y + (if c then 1 else 0)) % W16 = y + (if c then 1 else 0) := by
      apply Nat.mod_eq_of_lt
      simp only [BASE] at hy
      simp only [W16]
      omega
    have hxsplit : valb BASE xs = xs.headD 0 + BASE * valb BASE xs.tail :=
      val_headD_tail BASE xs
    simp only [valb_cons] at hle
    simp only [sub_loop, hs]
    by_cases hc : xs.headD 0 < y + (if c then 1 else 0)
    · rw [if_pos hc]
      have hrec : valb BASE ys + 1 ≤ valb BASE xs.tail := by
        rw [hxsplit] at hle
        simp only [BASE] at hle hc hx0 hy hcv ⊢
        omega
      have rv : valb BASE (sub_loop xs.tail ys true)
          = valb BASE xs.tail - (valb BASE ys + 1) := by
        simpa using (ih xs.tail true hxt hys' (by simpa using hrec)).1
      have rb := (ih xs.tail true hxt hys' (by simpa using hrec)).2
      have hm : (xs.headD 0 + BASE - (y + (if c then 1 else 0))) % W16
          = xs.headD 0 + BASE - (y + (if c then 1 else 0)) := by
        apply Nat.mod_eq_of_lt
        simp only [BASE] at hx0
        simp only [BASE, W16]
        omega
      rw [hm]
      refine ⟨?_, ?_⟩
      · simp only [valb_cons, rv]
        rw [hxsplit] at hle ⊢
        simp only [BASE] at hle hc hrec hx0 hy hcv ⊢
        omega
      · intro z hz
        rcases List.mem_cons.mp hz with h | hz
        · simp only [BASE] at h hc hy hcv hx0 ⊢
          omega
        · exact rb z hz
    · rw [if_neg hc]
      push_neg at hc
      have hrec : valb BASE ys ≤ valb BASE xs.tail := by
        rw [hxsplit] at hle
        simp only [BASE] at hle hc hx0 hy hcv ⊢
        omega
      have rv : valb BASE (sub_loop xs.tail ys false)
          = valb BASE xs.tail - valb BASE ys := by
        simpa using (ih xs.tail false hxt hys' (by simpa using hrec)).1
      have rb := (ih xs.tail false hxt hys' (by simpa using hrec)).2
      have hm : (xs.headD 0 - (y + (if c then 1 else 0))) % W16
          = xs.headD 0 - (y + (if c then 1 else 0)) := by
        apply Nat.mod_eq_of_lt
        simp only [BASE] at hx0
        simp only [W16]
        omega
      rw [hm]
      refine ⟨?_, ?_⟩
      · simp only [valb_cons, rv]
        rw [hxsplit] at hle ⊢
        simp only [BASE] at hle hc hrec hx0 hy hcv ⊢
        omega
      · intro z hz
        rcases List.mem_cons.mp hz with h | hz
        · simp only [BASE] at h hc hy hcv hx0 ⊢
          omega
        · exact rb z hz

lemma sub_spec (a b : List ℕ) (ha : ∀ x ∈ a, x < BASE) (hb : ∀ x ∈ b, x < BASE)
    (hle : val b ≤ val a) :
    val (sub a b) = val a - val b ∧ Norm (sub a b) := by
  obtain ⟨hv, hbs⟩ := sub_loop_spec b a false ha hb (by simpa [val] using hle)
  refine ⟨?_, Norm_trim_check _ hbs⟩
  unfold sub val
  rw [valb_trim_check, hv]
  simp


/-- Most-significant-first evaluator, used to reason about `cmpMSD` (which
scans the reversed limb vector). -/
def valM : List ℕ → ℕ
  | [] => 0
  | d :: ds => d * BASE ^ ds.length + valM ds

lemma valM_append_single (u : List ℕ) (x : ℕ) : valM (u ++ [x]) = valM u * BASE + x := by
  induction u with
  | nil => simp [valM]
  | cons d ds ih =>
    have hlen : (ds ++ [x]).length = ds.length + 1 := by simp
    rw [show (d :: ds) ++ [x] = d :: (ds ++ [x]) from rfl]
    simp only [valM, ih, hlen]
    ring

lemma valb_eq_valM_reverse (l : List ℕ) : valb BASE l = valM l.reverse := by
  induction l with
  | nil => simp [valM]
  | cons x xs ih =>
    rw [List.reverse_cons, valM_append_single, ← ih]
    simp only [valb_cons]
    ring

lemma valM_lt (l : List ℕ) (h : ∀ d ∈ l, d < BASE) : valM l < BASE ^ l.length := by
  induction l with
  | nil => simp [valM]
  | cons d ds ih =>
    have hd := h d (by simp)
    have hds := ih (fun y hy => h y (by simp [hy]))
    simp only [valM, List.length_cons, pow_succ]
    calc d * BASE ^ ds.length + valM ds < d * BASE ^ ds.length + BASE ^ ds.length := by omega
      _ = (d + 1) * BASE ^ ds.length := by ring
      _ ≤ BASE * BASE ^ ds.length := Nat.mul_le_mul_right _ (by omega)
      _ = BASE ^ ds.length * BASE := by ring

lemma cmpMSD_tri (x : List ℕ) : ∀ (y : List ℕ), x.length = y.length →
    (∀ d ∈ x, d < BASE) → (∀ d ∈ y, d < BASE) →
    (cmpMSD x y = -1 ∧ valM x < valM y) ∨ (cmpMSD x y = 0 ∧ x = y) ∨
    (cmpMSD x y = 1 ∧ valM y < valM x) := by
  induction x with
  | nil =>
    intro y hlen _ _
    have hy : y = [] := List.eq_nil_of_length_eq_zero hlen.symm
    subst hy
    right; left
    exact ⟨rfl, rfl⟩
  | cons a as ih =>
    intro y hlen hx hy
    cases y with
    | nil => simp at hlen
    | cons b bs =>
      have hlen' : as.length = bs.length := by simpa using hlen
      have ha := hx a (by simp)
      have hb := hy b (by simp)
      by_cases hab : a = b
      · subst hab
        rcases ih bs hlen' (fun d hd => hx d (by simp [hd])) (fun d hd => hy d (by simp [hd]))
          with ⟨h1, h2⟩ | ⟨h1, h2⟩ | ⟨h1, h2⟩
        · left
          refine ⟨by simp [cmpMSD, h1], ?_⟩
          simp only [valM, hlen']
          exact Nat.add_lt_add_left h2 _
        · right; left
          exact ⟨by simp [cmpMSD, h1], by rw [h2]⟩
        · right; right
          refine ⟨by simp [cmpMSD, h1], ?_⟩
          simp only [valM, hlen']
          exact Nat.add_lt_add_left h2 _
      · by_cases hlt : a < b
        · left
          refine ⟨by simp [cmpMSD, hab, hlt], ?_⟩
          have h1 : valM as < BASE ^ as.length := valM_lt as (fun d hd => hx d (by simp [hd]))
          calc valM (a :: as) = a * BASE ^ as.length + valM as := rfl
            _ < a * BASE ^ as.length + BASE ^ as.length := by omega
            _ = (a + 1) * BASE ^ as.length := by ring
            _ ≤ b * BASE ^ as.length := Nat.mul_le_mul_right _ (by omega)
            _ = b * BASE ^ bs.length := by rw [hlen']
            _ ≤ valM (b :: bs) := by simp [valM]
        · have hgt : b < a := by omega
          right; right
          refine ⟨by simp [cmpMSD, hab, hlt], ?_⟩
          have h1 : valM bs < BASE ^ bs.length := valM_lt bs (fun d hd => hy d (by simp [hd]))
          calc valM (b :: bs) = b * BASE ^ bs.length + valM bs := rfl
            _ < b * BASE ^ bs.length + BASE ^ bs.length := by omega
            _ = (b + 1) * BASE ^ bs.length := by ring
            _ ≤ a * BASE ^ bs.length := Nat.mul_le_mul_right _ (by omega)
            _ = a * BASE ^ as.length := by rw [hlen']
            _ ≤ valM (a :: as) := by simp [valM]

/-- `compare` decides the numeric order of normalized vectors (and equality
of vectors). -/
lemma compare_tri (a b : List ℕ) (ha : Norm a) (hb : Norm b) :
    (compare a b = -1 ∧ val a < val b) ∨ (compare a b = 0 ∧ a = b) ∨
    (compare a b = 1 ∧ val b < val a) := by
  by_cases hlen : a.length = b.length
  · have hxr : a.reverse.length = b.reverse.length := by simpa using hlen
    have hcomp : compare a b = cmpMSD a.reverse b.reverse := by
      unfold compare
      rw [if_neg (not_not_intro hlen)]
    have hva : val a = valM a.reverse := valb_eq_valM_reverse a
    have hvb : val b = valM b.reverse := valb_eq_valM_reverse b
    rcases cmpMSD_tri a.reverse b.reverse hxr
      (fun d hd => ha.lt d (List.mem_reverse.mp hd))
      (fun d hd => hb.lt d (List.mem_reverse.mp hd)) with ⟨h1, h2⟩ | ⟨h1, h2⟩ | ⟨h1, h2⟩
    · left
      exact ⟨by rw [hcomp, h1], by rw [hva, hvb]; exact h2⟩
    · right; left
      exact ⟨by rw [hcomp, h1], List.reverse_injective h2⟩
    · right; right
      exact ⟨by rw [hcomp, h1], by rw [hva, hvb]; exact h2⟩
  · have hB1 : (1 : ℕ) ≤ BASE := by norm_num [BASE]
    rcases Nat.lt_or_ge a.length b.length with hlt | hge
    · left
      refine ⟨by unfold compare; rw [if_pos hlen, if_pos hlt], ?_⟩
      have hane : a.length ≥ 1 := by
        have := ha.ne_nil
        cases a with
        | nil => exact absurd rfl this
        | cons _ _ => simp
      have hbne : b ≠ [0] := by
        intro hb0
        rw [hb0] at hlt
        simp only [List.length_singleton] at hlt
        omega
      have hblast : b.getLast? ≠ some 0 := hb.last.resolve_left hbne
      calc val a < BASE ^ a.length := valb_lt_pow BASE a ha.lt
        _ ≤ BASE ^ (b.length - 1) := Nat.pow_le_pow_right (by omega) (by omega)
        _ ≤ val b := pow_le_valb BASE b hb.ne_nil hblast
    · have hgt : b.length < a.length := by omega
      right; right
      refine ⟨by unfold compare; rw [if_pos hlen, if_neg (by omega)], ?_⟩
      have hbne : b.length ≥ 1 := by
        have := hb.ne_nil
        cases b with
        | nil => exact absurd rfl this
        | cons _ _ => simp
      have hane : a ≠ [0] := by
        intro ha0
        rw [ha0] at hgt
        simp only [List.length_singleton] at hgt
        omega
      have halast : a.getLast? ≠ some 0 := ha.last.resolve_left hane
      calc val b < BASE ^ b.length := valb_lt_pow BASE b hb.lt
        _ ≤ BASE ^ (a.length - 1) := Nat.pow_le_pow_right (by omega) (by omega)
        _ ≤ val a := pow_le_valb BASE a ha.ne_nil halast

lemma compare_neg_iff (a b : List ℕ) (ha : Norm a) (hb : Norm b) :
    compare a b < 0 ↔ val a < val b := by
  rcases compare_tri a b ha hb with ⟨h1, h2⟩ | ⟨h1, h2⟩ | ⟨h1, h2⟩ <;> rw [h1]
  · simp [h2]
  · subst h2; simp
  · constructor
    · intro h; exact absurd h (by norm_num)
    · intro h; omega

lemma compare_zero_iff (a b : List ℕ) (ha : Norm a) (hb : Norm b) :
    compare a b = 0 ↔ val a = val b := by
  rcases compare_tri a b ha hb with ⟨h1, h2⟩ | ⟨h1, h2⟩ | ⟨h1, h2⟩ <;> rw [h1]
  · constructor
    · intro h; exact absurd h (by norm_num)
    · intro h; omega
  · subst h2; simp
  · constructor
    · intro h; exact absurd h (by norm_num)
    · intro h; omega

lemma compare_pos_iff (a b : List ℕ) (ha : Norm a) (hb : Norm b) :
    0 < compare a b ↔ val b < val a := by
  rcases compare_tri a b ha hb with ⟨h1, h2⟩ | ⟨h1, h2⟩ | ⟨h1, h2⟩ <;> rw [h1]
  · constructor
    · intro h; exact absurd h (by norm_num)
    · intro h; omega
  · subst h2; simp
  · simp [h2]

lemma compare_nonpos_iff (a b : List ℕ) (ha : Norm a) (hb : Norm b) :
    compare a b ≤ 0 ↔ val a ≤ val b := by
  rcases compare_tri a b ha hb with ⟨h1, h2⟩ | ⟨h1, h2⟩ | ⟨h1, h2⟩ <;> rw [h1]
  · simp; omega
  · subst h2; simp
  · constructor
    · intro h; exact absurd h (by norm_num)
    · intro h; omega

lemma compare_eq_zero_eq (a b : List ℕ) (ha : Norm a) (hb : Norm b)
    (h : compare a b = 0) : a = b := by
  rcases compare_tri a b ha hb with ⟨h1, _⟩ | ⟨_, h2⟩ | ⟨h1, _⟩
  · rw [h1] at h; exact absurd h (by norm_num)
  · exact h2
  · rw [h1] at h; exact absurd h (by norm_num)

lemma getD_replicate_zero (n i : ℕ) : (List.replicate n (0 : ℕ)).getD i 0 = 0 := by
  induction n generalizing i with
  | zero => simp
  | succ n ih =>
    cases i with
    | zero => simp [List.replicate_succ]
    | succ i => simpa [List.replicate_succ] using ih i

lemma pad_getD (l : List ℕ) (k j : ℕ) :
    (l ++ List.replicate k 0).getD j 0 = l.getD j 0 := by
  by_cases hj : j < l.length
  · rw [List.getD_append _ _ _ _ hj]
  · push_neg at hj
    rw [List.getD_append_right _ _ _ _ hj, List.getD_eq_default _ _ hj]
    exact getD_replicate_zero k (j - l.length)

lemma valb_set (b : ℕ) (l : List ℕ) : ∀ (p v : ℕ), p < l.length →
    valb b (l.set p v) + l.getD p 0 * b ^ p = valb b l + v * b ^ p := by
  induction l with
  | nil => intro p v hp; simp at hp
  | cons x xs ih =>
    intro p v hp
    cases p with
    | zero => simp [List.set_cons_zero]; ring
    | succ p =>
      have hp' : p < xs.length := by simpa using hp
      have hrec := ih p v hp'
      simp only [List.set_cons_succ, valb_cons, List.getD_cons_succ, pow_succ]
      calc x + b * valb b (xs.set p v) + xs.getD p 0 * (b ^ p * b)
          = x + b * (valb b (xs.set p v) + xs.getD p 0 * b ^ p) := by ring
        _ = x + b * (valb b xs + v * b ^ p) := by rw [hrec]
        _ = x + b * valb b xs + v * (b ^ p * b) := by ring

lemma getD_set_self (l : List ℕ) : ∀ (p v : ℕ), p < l.length →
    (l.set p v).getD p 0 = v := by
  induction l with
  | nil => intro p v hp; simp at hp
  | cons x xs ih =>
    intro p v hp
    cases p with
    | zero => simp
    | succ p =>
      have hp' : p < xs.length := by simpa using hp
      simpa [List.set_cons_succ] using ih p v hp'

lemma getD_set_other (l : List ℕ) : ∀ (p v j : ℕ), j ≠ p →
    (l.set p v).getD j 0 = l.getD j 0 := by
  induction l with
  | nil => intro p v j _; simp
  | cons x xs ih =>
    intro p v j hj
    cases p with
    | zero =>
      cases j with
      | zero => exact absurd rfl hj
      | succ j => simp
    | succ p =>
      cases j with
      | zero => simp
      | succ j =>
        have hj' : j ≠ p := fun h => hj (by rw [h])
        simpa [List.set_cons_succ] using ih p v j hj'

lemma checked_add_length (l : List ℕ) (p x : ℕ) :
    (checked_add l p x).length = max (p + 1) l.length := by
  unfold checked_add
  simp only [List.length_set, List.length_append, List.length_replicate]
  omega

lemma checked_add_getD_self (l : List ℕ) (p x : ℕ) :
    (checked_add l p x).getD p 0 = (l.getD p 0 + x) % W16 := by
  unfold checked_add
  have hp : p < (l ++ List.replicate (p + 1 - l.length) 0).length := by
    simp only [List.length_append, List.length_replicate]
    omega
  rw [getD_set_self _ _ _ hp, pad_getD]

lemma checked_add_getD_other (l : List ℕ) (p x j : ℕ) (hj : j ≠ p) :
    (checked_add l p x).getD j 0 = l.getD j 0 := by
  unfold checked_add
  rw [getD_set_other _ _ _ _ hj, pad_getD]

lemma val_checked_add (l : List ℕ) (p x : ℕ) (h0 : l.getD p 0 = 0) (hx : x < W16) :
    val (checked_add l p x) = val l + x * BASE ^ p := by
  simp only [checked_add, val]
  set g := l ++ List.replicate (p + 1 - l.length) 0 with hg
  have hgD : g.getD p 0 = 0 := by rw [hg, pad_getD]; exact h0
  have hlen : p < g.length := by
    rw [hg]
    simp only [List.length_append, List.length_replicate]
    omega
  have hmod : (g.getD p 0 + x) % W16 = x := by
    rw [hgD]
    simpa using Nat.mod_eq_of_lt hx
  rw [hmod]
  have hvg : valb BASE g = valb BASE l := by
    rw [hg, valb_append, valb_replicate_zero]
    ring
  have := valb_set BASE g p x hlen
  rw [hgD] at this
  simp only [Nat.zero_mul, Nat.add_zero] at this
  rw [this, hvg]

lemma val_shl (a : List ℕ) (p : ℕ) : val (shl a p) = BASE ^ p * val a := by
  unfold shl val
  rw [valb_trim_check, valb_append, valb_replicate_zero, List.length_replicate]
  simp

lemma Norm_shl (a : List ℕ) (p : ℕ) (h : ∀ x ∈ a, x < BASE) : Norm (shl a p) := by
  apply Norm_trim_check
  intro x hx
  rcases List.mem_append.mp hx with hx | hx
  · have := List.eq_of_mem_replicate hx
    subst this
    norm_num [BASE]
  · exact h x hx

lemma val_range1 (l : List ℕ) (i : ℕ) : val (range1 l i) = val (l.drop i) :=
  val_trim_check _

lemma Norm_range1 (l : List ℕ) (i : ℕ) (h : ∀ x ∈ l, x < BASE) : Norm (range1 l i) :=
  Norm_trim_check _ (fun x hx => h x (List.drop_subset i l hx))

lemma val_take_drop (l : List ℕ) (i : ℕ) :
    val l = val (l.take i) + BASE ^ (l.take i).length * val (l.drop i) := by
  conv_lhs => rw [show l = l.take i ++ l.drop i from (List.take_append_drop i l).symm]
  exact valb_append BASE _ _

lemma val_rangeI (l : List ℕ) (i j : ℕ) :
    val (rangeI l i j) = val ((l.drop i).take (j - i)) := val_trim_check _

lemma Norm_rangeI (l : List ℕ) (i j : ℕ) (h : ∀ x ∈ l, x < BASE) : Norm (rangeI l i j) :=
  Norm_trim_check _ (fun x hx => h x (List.drop_subset i l (List.take_subset _ _ hx)))


lemma carry_flush_spec (c : ℕ) :
    val (carry_flush c) = c ∧ ∀ x ∈ carry_flush c, x < BASE := by
  induction c using Nat.strong_induction_on with
  | _ c ih =>
    cases c with
    | zero => simp [carry_flush, val]
    | succ c =>
      have hlt : (c + 1) / BASE < c + 1 := Nat.div_lt_self (by omega) (by norm_num [BASE])
      obtain ⟨ihv, ihb⟩ := ih ((c + 1) / BASE) hlt
      constructor
      · simp only [carry_flush, val, valb_cons]
        unfold val at ihv
        rw [ihv]
        exact Nat.mod_add_div (c + 1) BASE
      · intro x hx
        simp only [carry_flush] at hx
        rcases List.mem_cons.mp hx with h | hx
        · rw [h]
          exact Nat.mod_lt _ (by norm_num [BASE])
        · exact ihb x hx

lemma carry_norm_spec (l : List ℕ) : ∀ (c : ℕ),
    val (carry_norm l c) = val l + c ∧ ∀ x ∈ carry_norm l c, x < BASE := by
  induction l with
  | nil =>
    intro c
    obtain ⟨hv, hb⟩ := carry_flush_spec c
    exact ⟨by simpa [carry_norm] using hv, by simpa [carry_norm] using hb⟩
  | cons x xs ih =>
    intro c
    obtain ⟨ihv, ihb⟩ := ih ((x + c) / BASE)
    constructor
    · simp only [carry_norm, val, valb_cons]
      unfold val at ihv
      rw [ihv]
      have := Nat.mod_add_div (x + c) BASE
      simp only [BASE] at *
      omega
    · intro z hz
      simp only [carry_norm] at hz
      rcases List.mem_cons.mp hz with h | hz
      · rw [h]
        exact Nat.mod_lt _ (by norm_num [BASE])
      · exact ihb z hz

lemma scalar_go_spec (xs : List ℕ) (s : ℕ) : ∀ (c : ℕ),
    val (scalar_go xs s c) = s * val xs + c ∧ ∀ x ∈ scalar_go xs s c, x < BASE := by
  induction xs with
  | nil =>
    intro c
    obtain ⟨hv, hb⟩ := carry_flush_spec c
    refine ⟨?_, by simpa [scalar_go] using hb⟩
    show val (carry_flush c) = s * val [] + c
    rw [hv]
    simp [val]
  | cons x xs ih =>
    intro c
    obtain ⟨ihv, ihb⟩ := ih ((s * x + c) / BASE)
    constructor
    · simp only [scalar_go, val, valb_cons]
      unfold val at ihv
      rw [ihv]
      have h1 := Nat.mod_add_div (s * x + c) BASE
      have h2 : s * (x + BASE * valb BASE xs) = s * x + BASE * (s * valb BASE xs) := by ring
      rw [h2]
      simp only [BASE] at *
      omega
    · intro z hz
      simp only [scalar_go] at hz
      rcases List.mem_cons.mp hz with h | hz
      · rw [h]
        exact Nat.mod_lt _ (by norm_num [BASE])
      · exact ihb z hz

lemma valb_map_range (b : ℕ) (f : ℕ → ℕ) : ∀ (N : ℕ),
    valb b ((List.range N).map f) = ∑ k ∈ Finset.range N, b ^ k * f k := by
  intro N
  induction N with
  | zero => simp
  | succ N ih =>
    rw [List.range_succ, List.map_append, valb_append, Finset.sum_range_succ, ih]
    simp

lemma filterMap_ite_sum (n : ℕ) (P : ℕ → Prop) [DecidablePred P] (f : ℕ → ℕ) :
    ((List.range n).filterMap (fun i => if P i then some (f i) else none)).sum
      = ∑ i ∈ Finset.range n, if P i then f i else 0 := by
  induction n with
  | zero => simp
  | succ n ih =>
    rw [List.range_succ, List.filterMap_append, List.sum_append, Finset.sum_range_succ, ih]
    by_cases hP : P n <;> simp [hP]

lemma prods_sum (a b : List ℕ) (k : ℕ) :
    (prods a b k).sum = ∑ i ∈ Finset.range a.length,
      if i ≤ k ∧ k - i < b.length then a.getD i 0 * b.getD (k - i) 0 else 0 := by
  unfold prods
  exact filterMap_ite_sum a.length _ _

lemma valb_as_sum (b : ℕ) (l : List ℕ) :
    valb b l = ∑ i ∈ Finset.range l.length, b ^ i * l.getD i 0 := by
  induction l with
  | nil => simp
  | cons x xs ih =>
    rw [valb_cons, List.length_cons, Finset.sum_range_succ']
    simp only [List.getD_cons_succ, List.getD_cons_zero, pow_zero, one_mul]
    rw [ih, Finset.mul_sum]
    have hterm : ∀ i, b * (b ^ i * xs.getD i 0) = b ^ (i + 1) * xs.getD i 0 := by
      intro i; ring
    rw [Finset.sum_congr rfl (fun i _ => hterm i)]
    omega

/-- Evaluating the column-sum (convolution) list at radix `BASE` gives the
product of the operand values. -/
lemma conv_cols_val (a b : List ℕ) :
    valb BASE ((List.range (a.length + b.length - 1)).map (fun k => (prods a b k).sum))
      = val a * val b := by
  rcases Nat.eq_zero_or_pos a.length with hn | hn
  · have ha : a = [] := List.eq_nil_of_length_eq_zero hn
    subst ha
    have : ∀ k, (prods ([] : List ℕ) b k).sum = 0 := by
      intro k
      unfold prods
      rw [filterMap_ite_sum]
      simp
    rw [valb_map_range]
    simp [this, val]
  rcases Nat.eq_zero_or_pos b.length with hm | hm
  · have hb : b = [] := List.eq_nil_of_length_eq_zero hm
    subst hb
    have : ∀ k, (prods a ([] : List ℕ) k).sum = 0 := by
      intro k
      unfold prods
      rw [filterMap_ite_sum]
      simp
    rw [valb_map_range]
    simp [this, val]
  set n := a.length with hn'
  set m := b.length with hm'
  set K := n + m - 1 with hK
  rw [valb_map_range]
  have step1 : ∀ k, BASE ^ k * (prods a b k).sum
      = ∑ i ∈ Finset.range n, if i ≤ k ∧ k - i < m then
          BASE ^ k * (a.getD i 0 * b.getD (k - i) 0) else 0 := by
    intro k
    rw [prods_sum, Finset.mul_sum]
    apply Finset.sum_congr rfl
    intro i _
    by_cases h : i ≤ k ∧ k - i < m <;> simp [h]
  calc ∑ k ∈ Finset.range K, BASE ^ k * (prods a b k).sum
      = ∑ k ∈ Finset.range K, ∑ i ∈ Finset.range n,
          (if i ≤ k ∧ k - i < m then BASE ^ k * (a.getD i 0 * b.getD (k - i) 0) else 0) := by
        exact Finset.sum_congr rfl (fun k _ => step1 k)
    _ = ∑ i ∈ Finset.range n, ∑ k ∈ Finset.range K,
          (if i ≤ k ∧ k - i < m then BASE ^ k * (a.getD i 0 * b.getD (k - i) 0) else 0) :=
        Finset.sum_comm
    _ = ∑ i ∈ Finset.range n, BASE ^ i * a.getD i 0 * val b := by
        apply Finset.sum_congr rfl
        intro i hi
        have hiK : i ≤ K := by
          simp only [Finset.mem_range] at hi
          omega
        rw [Finset.range_eq_Ico, ← Finset.sum_Ico_consecutive _ (Nat.zero_le i) hiK]
        have hzero : ∑ k ∈ Finset.Ico 0 i,
            (if i ≤ k ∧ k - i < m then BASE ^ k * (a.getD i 0 * b.getD (k - i) 0) else 0) = 0 := by
          apply Finset.sum_eq_zero
          intro k hk
          simp only [Finset.mem_Ico] at hk
          rw [if_neg]
          rintro ⟨h1, _⟩
          omega
        rw [hzero, Nat.zero_add, Finset.sum_Ico_eq_sum_range]
        have hshift : ∀ j, (if i ≤ i + j ∧ i + j - i < m then
            BASE ^ (i + j) * (a.getD i 0 * b.getD (i + j - i) 0) else 0)
            = (if j < m then BASE ^ (i + j) * (a.getD i 0 * b.getD j 0) else 0) := by
          intro j
          have h1 : i + j - i = j := by omega
          rw [h1]
          by_cases hj : j < m
          · rw [if_pos ⟨by omega, hj⟩, if_pos hj]
          · rw [if_neg (by omega), if_neg hj]
        rw [Finset.sum_congr rfl (fun j _ => hshift j)]
        have hmK : m ≤ K - i := by
          simp only [Finset.mem_range] at hi
          omega
        rw [← Finset.sum_subset (Finset.range_subset.mpr hmK)
          (fun j _ hj => by
            rw [if_neg]
            intro hjm
            exact hj (Finset.mem_range.mpr hjm))]
        have : ∑ j ∈ Finset.range m, (if j < m then BASE ^ (i + j) * (a.getD i 0 * b.getD j 0) else 0)
            = ∑ j ∈ Finset.range m, BASE ^ i * a.getD i 0 * (BASE ^ j * b.getD j 0) := by
          apply Finset.sum_congr rfl
          intro j hj
          rw [if_pos (Finset.mem_range.mp hj), pow_add]
          ring
        rw [this, ← Finset.mul_sum]
        unfold val
        rw [valb_as_sum BASE b]
    _ = val a * val b := by
        have : ∑ i ∈ Finset.range n, BASE ^ i * a.getD i 0 * val b
            = (∑ i ∈ Finset.range n, BASE ^ i * a.getD i 0) * val b := by
          rw [Finset.sum_mul]
        rw [this]
        unfold val
        rw [valb_as_sum BASE a]

lemma sb_col_invariant (ps : List ℕ) : ∀ (v c : ℕ),
    (sb_col ps (v, c)).1 + BASE * (sb_col ps (v, c)).2 = v + BASE * c + ps.sum := by
  induction ps with
  | nil => intro v c; simp [sb_col]
  | cons p ps ih =>
    intro v c
    simp only [sb_col, List.sum_cons]
    by_cases hg : U64_BOUND < v + p
    · rw [if_pos hg]
      rw [ih]
      have := Nat.mod_add_div (v + p) BASE
      simp only [BASE] at *
      omega
    · rw [if_neg hg]
      rw [ih]
      omega

lemma sb_main_eq_carry_norm (cols : List (List ℕ)) : ∀ (carry : ℕ),
    sb_main cols carry = carry_norm (cols.map List.sum) carry := by
  induction cols with
  | nil => intro carry; rfl
  | cons ps rest ih =>
    intro carry
    simp only [sb_main, List.map_cons, carry_norm]
    have hinv := sb_col_invariant ps (carry % BASE) (carry / BASE)
    have hmd := Nat.mod_add_div carry BASE
    have h2 : ps.sum + carry
        = (sb_col ps (carry % BASE, carry / BASE)).1
          + BASE * (sb_col ps (carry % BASE, carry / BASE)).2 := by omega
    have hhead : (sb_col ps (carry % BASE, carry / BASE)).1 % BASE
        = (ps.sum + carry) % BASE := by
      simp only [BASE] at h2 ⊢
      omega
    have hcarry : (sb_col ps (carry % BASE, carry / BASE)).2
        + (sb_col ps (carry % BASE, carry / BASE)).1 / BASE
        = (ps.sum + carry) / BASE := by
      simp only [BASE] at h2 ⊢
      omega
    rw [hhead, hcarry, ih]

lemma sb_spec (a b : List ℕ) :
    val (sb a b) = val a * val b ∧ Norm (sb a b) := by
  unfold sb
  rw [sb_main_eq_carry_norm, List.map_map]
  have hmap : (List.sum ∘ prods a b) = fun k => (prods a b k).sum := rfl
  rw [hmap]
  obtain ⟨hv, hb⟩ := carry_norm_spec
    ((List.range (a.length + b.length - 1)).map (fun k => (prods a b k).sum)) 0
  constructor
  · unfold val
    rw [valb_trim_check]
    unfold val at hv
    rw [hv, conv_cols_val]
    simp [val]
  · exact Norm_trim_check _ hb

lemma fft_mul_spec (a b : List ℕ) :
    val (fft_mul a b) = val a * val b ∧ Norm (fft_mul a b) := by
  unfold fft_mul FFT.multiply
  obtain ⟨hv, hb⟩ := carry_norm_spec
    ((List.range (a.length + b.length - 1)).map (fun k => (prods a b k).sum)) 0
  constructor
  · unfold val
    rw [valb_trim_check]
    unfold val at hv
    rw [hv, conv_cols_val]
    simp [val]
  · exact Norm_trim_check _ hb


lemma getLast?_cons_ne_nil (x : ℕ) (l : List ℕ) (h : l ≠ []) :
    (x :: l).getLast? = l.getLast? := by
  cases l with
  | nil => exact absurd rfl h
  | cons y ys => exact List.getLast?_cons_cons

lemma Norm_singleton (v : ℕ) (hv : v < BASE) : Norm [v] := by
  constructor
  · by_cases h : v = 0
    · subst h; decide
    · exact trim_check_fix [v] (by simp) (by simpa using h)
  · intro x hx
    simp at hx
    subst hx
    exact hv

lemma val_zero_norm (l : List ℕ) (hl : Norm l) (h : val l = 0) : l = [0] := by
  rcases hl.last with h0 | h0
  · exact h0
  · exfalso
    have := valb_pos BASE (by norm_num [BASE]) l hl.ne_nil h0
    unfold val at h
    omega

lemma init_spec (x : ℕ) : val (init x) = x ∧ Norm (init x) := by
  induction x using Nat.strong_induction_on with
  | _ x ih =>
    by_cases h : x / BASE = 0
    · have hx : x < BASE := by
        rcases Nat.lt_or_ge x BASE with h1 | h1
        · exact h1
        · exfalso
          have := Nat.div_pos h1 (by norm_num [BASE] : 0 < BASE)
          omega
      have hinit : init x = [x % BASE] := by
        rw [init, dif_pos h]
      rw [hinit]
      constructor
      · simp only [val, valb_cons, valb_nil]
        rw [Nat.mod_eq_of_lt hx]
        ring
      · exact Norm_singleton _ (Nat.mod_lt _ (by norm_num [BASE]))
    · have hxpos : BASE ≤ x := by
        rcases Nat.lt_or_ge x BASE with h1 | h1
        · exact absurd (Nat.div_eq_of_lt h1) h
        · exact h1
      have hlt : x / BASE < x :=
        Nat.div_lt_self (by simp only [BASE] at hxpos; omega) (by norm_num [BASE])
      obtain ⟨ihv, ihn⟩ := ih (x / BASE) hlt
      have hinit : init x = x % BASE :: init (x / BASE) := by
        rw [init, dif_neg h]
      rw [hinit]
      have hne0 : init (x / BASE) ≠ [0] := by
        intro hz
        rw [hz] at ihv
        have : val [0] = 0 := by simp [val]
        omega
      have hlast : (init (x / BASE)).getLast? ≠ some 0 := ihn.last.resolve_left hne0
      constructor
      · simp only [val, valb_cons]
        unfold val at ihv
        rw [ihv]
        exact Nat.mod_add_div x BASE
      · constructor
        · apply trim_check_fix _ (by simp)
          rw [getLast?_cons_ne_nil _ _ ihn.ne_nil]
          exact hlast
        · intro z hz
          rcases List.mem_cons.mp hz with hz | hz
          · rw [hz]
            exact Nat.mod_lt _ (by norm_num [BASE])
          · exact ihn.lt z hz

/-- Core of the Karatsuba recombination: given correct sub-products, the
recombined value is the full product.  `mid ≤ |a|` and `mid ≤ |b|` hold at the
call site (`mid = |a| / 2` with `|a| ≤ |b|`). -/
lemma kara_val (a b : List ℕ) (mid : ℕ) (hmida : mid ≤ a.length) (hmidb : mid ≤ b.length)
    (ha : Norm a) (hb : Norm b)
    (hx : val (mul (rangeI a mid a.length) (rangeI b mid b.length))
        = val (rangeI a mid a.length) * val (rangeI b mid b.length))
    (hxn : Norm (mul (rangeI a mid a.length) (rangeI b mid b.length)))
    (hz : val (mul (rangeI a 0 mid) (rangeI b 0 mid))
        = val (rangeI a 0 mid) * val (rangeI b 0 mid))
    (hzn : Norm (mul (rangeI a 0 mid) (rangeI b 0 mid)))
    (hs : val (mul (add (rangeI a 0 mid) (rangeI a mid a.length))
                   (add (rangeI b 0 mid) (rangeI b mid b.length)))
        = val (add (rangeI a 0 mid) (rangeI a mid a.length))
          * val (add (rangeI b 0 mid) (rangeI b mid b.length)))
    (hsn : Norm (mul (add (rangeI a 0 mid) (rangeI a mid a.length))
                     (add (rangeI b 0 mid) (rangeI b mid b.length)))) :
    val (add (add (shl (mul (rangeI a mid a.length) (rangeI b mid b.length)) (2 * mid))
          (shl (sub (sub (mul (add (rangeI a 0 mid) (rangeI a mid a.length))
                              (add (rangeI b 0 mid) (rangeI b mid b.length)))
                         (mul (rangeI a mid a.length) (rangeI b mid b.length)))
                    (mul (rangeI a 0 mid) (rangeI b 0 mid))) mid))
        (mul (rangeI a 0 mid) (rangeI b 0 mid)))
      = val a * val b
    ∧ Norm (add (add (shl (mul (rangeI a mid a.length) (rangeI b mid b.length)) (2 * mid))
          (shl (sub (sub (mul (add (rangeI a 0 mid) (rangeI a mid a.length))
                              (add (rangeI b 0 mid) (rangeI b mid b.length)))
                         (mul (rangeI a mid a.length) (rangeI b mid b.length)))
                    (mul (rangeI a 0 mid) (rangeI b 0 mid))) mid))
        (mul (rangeI a 0 mid) (rangeI b 0 mid))) := by
  set a1 := rangeI a 0 mid with ha1
  set a2 := rangeI a mid a.length with ha2
  set b1 := rangeI b 0 mid with hb1
  set b2 := rangeI b mid b.length with hb2
  have ha1n : Norm a1 := Norm_rangeI a 0 mid ha.lt
  have ha2n : Norm a2 := Norm_rangeI a mid a.length ha.lt
  have hb1n : Norm b1 := Norm_rangeI b 0 mid hb.lt
  have hb2n : Norm b2 := Norm_rangeI b mid b.length hb.lt
  have hva1 : val a1 = val (a.take mid) := by
    rw [ha1, val_rangeI]
    simp
  have hva2 : val a2 = val (a.drop mid) := by
    rw [ha2, val_rangeI]
    congr 1
    exact List.take_of_length_le (by simp)
  have hvb1 : val b1 = val (b.take mid) := by
    rw [hb1, val_rangeI]
    simp
  have hvb2 : val b2 = val (b.drop mid) := by
    rw [hb2, val_rangeI]
    congr 1
    exact List.take_of_length_le (by simp)
  have hva : val a = val a1 + BASE ^ mid * val a2 := by
    rw [hva1, hva2]
    have := val_take_drop a mid
    rwa [List.length_take, Nat.min_eq_left hmida] at this
  have hvb : val b = val b1 + BASE ^ mid * val b2 := by
    rw [hvb1, hvb2]
    have := val_take_drop b mid
    rwa [List.length_take, Nat.min_eq_left hmidb] at this
  obtain ⟨hsa_v, hsa_n⟩ := add_spec a1 a2 ha1n.lt ha2n.lt
  obtain ⟨hsb_v, hsb_n⟩ := add_spec b1 b2 hb1n.lt hb2n.lt
  have hSexp : val (mul (add a1 a2) (add b1 b2))
      = val a1 * val b1 + val a1 * val b2 + val a2 * val b1 + val a2 * val b2 := by
    rw [hs, hsa_v, hsb_v]
    ring
  have hxle : val (mul a2 b2) ≤ val (mul (add a1 a2) (add b1 b2)) := by
    rw [hx, hSexp]
    omega
  obtain ⟨hsub1_v, hsub1_n⟩ := sub_spec _ _ hsn.lt hxn.lt hxle
  have hsub1 : val (sub (mul (add a1 a2) (add b1 b2)) (mul a2 b2))
      = val a1 * val b1 + val a1 * val b2 + val a2 * val b1 := by
    rw [hsub1_v, hSexp, hx]
    omega
  have hzle : val (mul a1 b1) ≤ val (sub (mul (add a1 a2) (add b1 b2)) (mul a2 b2)) := by
    rw [hsub1, hz]
    omega
  obtain ⟨hy_v, hy_n⟩ := sub_spec _ _ hsub1_n.lt hzn.lt hzle
  have hy : val (sub (sub (mul (add a1 a2) (add b1 b2)) (mul a2 b2)) (mul a1 b1))
      = val a1 * val b2 + val a2 * val b1 := by
    rw [hy_v, hsub1, hz]
    omega
  have hshx_n : Norm (shl (mul a2 b2) (2 * mid)) := Norm_shl _ _ hxn.lt
  have hshy_n : Norm (shl (sub (sub (mul (add a1 a2) (add b1 b2)) (mul a2 b2)) (mul a1 b1)) mid) :=
    Norm_shl _ _ hy_n.lt
  obtain ⟨hadd1_v, hadd1_n⟩ := add_spec _ _ hshx_n.lt hshy_n.lt
  obtain ⟨hadd2_v, hadd2_n⟩ := add_spec _ _ hadd1_n.lt hzn.lt
  refine ⟨?_, hadd2_n⟩
  rw [hadd2_v, hadd1_v, val_shl, val_shl, hx, hy, hz, hva, hvb]
  rw [hva1, hva2, hvb1, hvb2]
  have hpow : BASE ^ (2 * mid) = BASE ^ mid * BASE ^ mid := by
    rw [two_mul, pow_add]
  rw [hpow]
  ring

lemma mul_spec_aux : ∀ (n : ℕ) (a b : List ℕ),
    2 * (a.length + b.length) + (if b.length < a.length then 1 else 0) ≤ n →
    Norm a → Norm b → val (mul a b) = val a * val b ∧ Norm (mul a b) := by
  intro n
  induction n with
  | zero =>
    intro a b hm ha hb
    exfalso
    have h1 : 1 ≤ a.length := by
      cases a with
      | nil => exact absurd rfl ha.ne_nil
      | cons _ _ => simp
    have h2 : 1 ≤ b.length := by
      cases b with
      | nil => exact absurd rfl hb.ne_nil
      | cons _ _ => simp
    omega
  | succ n ih =>
    intro a b hm ha hb
    rw [mul]
    by_cases hswap : b.length < a.length
    · rw [dif_pos hswap]
      rw [if_pos hswap] at hm
      have hmeas : 2 * (b.length + a.length) + (if a.length < b.length then 1 else 0) ≤ n := by
        rw [if_neg (by omega)]
        omega
      obtain ⟨hv, hn⟩ := ih b a hmeas hb ha
      refine ⟨?_, hn⟩
      rw [hv]
      exact Nat.mul_comm _ _
    · rw [dif_neg hswap]
      rw [if_neg (by omega)] at hm
      by_cases hfft : KARATSUBA_CUTOFF < a.length ∧ INTEGER_FFT_CUTOFF < a.length + b.length
      · rw [if_pos hfft]
        exact fft_mul_spec a b
      · rw [if_neg hfft]
        by_cases hk : KARATSUBA_CUTOFF < a.length
        · rw [dif_pos hk]
          have hmida : a.length / 2 ≤ a.length := Nat.div_le_self _ _
          have hmidb : a.length / 2 ≤ b.length := by omega
          have hkn : 150 < a.length := by simpa [KARATSUBA_CUTOFF] using hk
          have l_a1 := rangeI_length_le a 0 (a.length / 2)
          have l_a2 := rangeI_length_le a (a.length / 2) a.length
          have l_b1 := rangeI_length_le b 0 (a.length / 2)
          have l_b2 := rangeI_length_le b (a.length / 2) b.length
          have l_sa := add_length (rangeI a 0 (a.length / 2)) (rangeI a (a.length / 2) a.length)
          have l_sb := add_length (rangeI b 0 (a.length / 2)) (rangeI b (a.length / 2) b.length)
          have sp_x := ih (rangeI a (a.length / 2) a.length) (rangeI b (a.length / 2) b.length)
            (by split <;> omega) (Norm_rangeI a _ _ ha.lt) (Norm_rangeI b _ _ hb.lt)
          have sp_z := ih (rangeI a 0 (a.length / 2)) (rangeI b 0 (a.length / 2))
            (by split <;> omega) (Norm_rangeI a _ _ ha.lt) (Norm_rangeI b _ _ hb.lt)
          have sp_s := ih (add (rangeI a 0 (a.length / 2)) (rangeI a (a.length / 2) a.length))
            (add (rangeI b 0 (a.length / 2)) (rangeI b (a.length / 2) b.length))
            (by split <;> omega)
            (add_spec _ _ (Norm_rangeI a 0 _ ha.lt).lt (Norm_rangeI a _ _ ha.lt).lt).2
            (add_spec _ _ (Norm_rangeI b 0 _ hb.lt).lt (Norm_rangeI b _ _ hb.lt).lt).2
          exact kara_val a b (a.length / 2) hmida hmidb ha hb
            sp_x.1 sp_x.2 sp_z.1 sp_z.2 sp_s.1 sp_s.2
        · rw [dif_neg hk]
          exact sb_spec a b

/-- `operator*` computes the product of the values, across all three dispatch
paths, and returns a normalized vector. -/
lemma mul_spec (a b : List ℕ) (ha : Norm a) (hb : Norm b) :
    val (mul a b) = val a * val b ∧ Norm (mul a b) :=
  mul_spec_aux (2 * (a.length + b.length) + 1) a b (by split <;> omega) ha hb

lemma karatsuba_mul_spec (a b : List ℕ) (ha : Norm a) (hb : Norm b)
    (hlen : a.length ≤ b.length) :
    val (karatsuba_mul a b) = val a * val b ∧ Norm (karatsuba_mul a b) := by
  have hmida : a.length / 2 ≤ a.length := Nat.div_le_self _ _
  have hmidb : a.length / 2 ≤ b.length := le_trans hmida hlen
  have sp_x := mul_spec (rangeI a (a.length / 2) a.length) (rangeI b (a.length / 2) b.length)
    (Norm_rangeI a _ _ ha.lt) (Norm_rangeI b _ _ hb.lt)
  have sp_z := mul_spec (rangeI a 0 (a.length / 2)) (rangeI b 0 (a.length / 2))
    (Norm_rangeI a _ _ ha.lt) (Norm_rangeI b _ _ hb.lt)
  have sp_s := mul_spec (add (rangeI a 0 (a.length / 2)) (rangeI a (a.length / 2) a.length))
    (add (rangeI b 0 (a.length / 2)) (rangeI b (a.length / 2) b.length))
    (add_spec _ _ (Norm_rangeI a 0 _ ha.lt).lt (Norm_rangeI a _ _ ha.lt).lt).2
    (add_spec _ _ (Norm_rangeI b 0 _ hb.lt).lt (Norm_rangeI b _ _ hb.lt).lt).2
  exact kara_val a b (a.length / 2) hmida hmidb ha hb
    sp_x.1 sp_x.2 sp_z.1 sp_z.2 sp_s.1 sp_s.2

lemma mulScalar_spec (a : List ℕ) (s : ℕ) (ha : Norm a) :
    val (mulScalar a s) = val a * s ∧ Norm (mulScalar a s) := by
  unfold mulScalar
  by_cases h0 : s = 0
  · rw [if_pos h0, h0]
    refine ⟨?_, Norm_zero⟩
    simp [val]
  · rw [if_neg h0]
    by_cases hB : BASE_OVERFLOW_CUTOFF ≤ s
    · rw [if_pos hB]
      obtain ⟨hiv, hin⟩ := init_spec s
      obtain ⟨hv, hn⟩ := mul_spec a (init s) ha hin
      exact ⟨by rw [hv, hiv], hn⟩
    · rw [if_neg hB]
      obtain ⟨hv, hbs⟩ := scalar_go_spec a s 0
      show val (trim_check (scalar_go a s 0
          ++ List.replicate (a.length + 1 - (scalar_go a s 0).length) 0)) = val a * s
        ∧ Norm (trim_check (scalar_go a s 0
          ++ List.replicate (a.length + 1 - (scalar_go a s 0).length) 0))
      constructor
      · unfold val
        rw [valb_trim_check, valb_append, valb_replicate_zero]
        unfold val at hv
        rw [hv]
        ring
      · apply Norm_trim_check
        intro x hx
        rcases List.mem_append.mp hx with hx | hx
        · exact hbs x hx
        · have := List.eq_of_mem_replicate hx
          subst this
          norm_num [BASE]


lemma getD_lt_of_mem (l : List ℕ) (h : ∀ j, l.getD j 0 < BASE) : ∀ x ∈ l, x < BASE := by
  induction l with
  | nil => simp
  | cons y ys ih =>
    intro x hx
    rcases List.mem_cons.mp hx with rfl | hx
    · exact h 0
    · exact ih (fun j => h (j + 1)) x hx

lemma div_loop1_spec (other chunk : List ℕ) (hon : Norm other) (hcn : Norm chunk)
    (hop : 0 < val other) : ∀ (d : ℕ) (s : List ℕ), Norm s → val s = val other * d →
    val (div_loop1 other chunk d s).2 = val other * (div_loop1 other chunk d s).1 ∧
    Norm (div_loop1 other chunk d s).2 ∧
    val (div_loop1 other chunk d s).2 ≤ val chunk := by
  intro d
  induction d with
  | zero =>
    intro s hsn hsv
    simp only [div_loop1]
    refine ⟨by simpa using hsv, hsn, ?_⟩
    simp only [Nat.mul_zero] at hsv
    omega
  | succ d ih =>
    intro s hsn hsv
    simp only [div_loop1]
    by_cases hc : 0 < compare s chunk
    · rw [if_pos hc]
      have hlt : val chunk < val s := (compare_pos_iff s chunk hsn hcn).mp hc
      have hole : val other ≤ val s := by
        rw [hsv, Nat.mul_succ]
        omega
      obtain ⟨hsubv, hsubn⟩ := sub_spec s other hsn.lt hon.lt hole
      apply ih (sub s other) hsubn
      rw [hsubv, hsv, Nat.mul_succ]
      omega
    · rw [if_neg hc]
      push_neg at hc
      have hle : val s ≤ val chunk := (compare_nonpos_iff s chunk hsn hcn).mp hc
      exact ⟨hsv, hsn, hle⟩

lemma div_loop2_go_spec (other chunk : List ℕ) (hon : Norm other) (hcn : Norm chunk)
    (hop : 0 < val other) (hcb : val chunk < val other * BASE) :
    ∀ (fuel d : ℕ) (s : List ℕ), Norm s → val s = val other * d →
    val s ≤ val chunk → fuel = BASE - 1 - d →
    val (div_loop2_go other chunk fuel d s).2
      = val other * (div_loop2_go other chunk fuel d s).1 ∧
    Norm (div_loop2_go other chunk fuel d s).2 ∧
    val (div_loop2_go other chunk fuel d s).2 ≤ val chunk ∧
    val chunk < val other * ((div_loop2_go other chunk fuel d s).1 + 1) ∧
    (div_loop2_go other chunk fuel d s).1 < BASE := by
  intro fuel
  induction fuel with
  | zero =>
    intro d s hsn hsv hsle hfuel
    simp only [div_loop2_go]
    have hdlt : d < BASE := by
      by_contra hge
      push_neg at hge
      have h1 : val other * BASE ≤ val other * d := Nat.mul_le_mul_left _ hge
      rw [← hsv] at h1
      omega
    have hdeq : d = BASE - 1 := by
      simp only [BASE] at hfuel hdlt ⊢
      omega
    refine ⟨hsv, hsn, hsle, ?_, hdlt⟩
    rw [hdeq]
    have : BASE - 1 + 1 = BASE := by norm_num [BASE]
    rw [this]
    exact hcb
  | succ fuel ih =>
    intro d s hsn hsv hsle hfuel
    simp only [div_loop2_go]
    obtain ⟨haddv, haddn⟩ := add_spec s other hsn.lt hon.lt
    by_cases hc : compare (add s other) chunk ≤ 0
    · rw [if_pos hc]
      have hle : val (add s other) ≤ val chunk :=
        (compare_nonpos_iff _ chunk haddn hcn).mp hc
      apply ih (d + 1) (add s other) haddn
      · rw [haddv, hsv, Nat.mul_succ]
      · exact hle
      · omega
    · rw [if_neg hc]
      push_neg at hc
      have hgt : val chunk < val (add s other) := (compare_pos_iff _ chunk haddn hcn).mp hc
      have hdlt : d < BASE := by
        simp only [BASE] at hfuel ⊢
        omega
      refine ⟨hsv, hsn, hsle, ?_, hdlt⟩
      rw [haddv, hsv] at hgt
      show val chunk < val other * (d + 1)
      rw [Nat.mul_succ]
      omega

lemma div_step_spec (est : List ℕ → List ℕ → ℕ) (other : List ℕ) (i : ℕ)
    (q r : List ℕ) (hon : Norm other) (hop : 0 < val other)
    (hrn : Norm r) (hqb : ∀ j, q.getD j 0 < BASE) (hq0 : ∀ j, j ≤ i → q.getD j 0 = 0)
    (hbound : val r < val other * BASE ^ (i + 1)) :
    val (div_step est other i (q, r)).1 * val other + val (div_step est other i (q, r)).2
      = val q * val other + val r ∧
    Norm (div_step est other i (q, r)).2 ∧
    (∀ j, (div_step est other i (q, r)).1.getD j 0 < BASE) ∧
    (∀ j, j < i → (div_step est other i (q, r)).1.getD j 0 = 0) ∧
    val (div_step est other i (q, r)).2 < val other * BASE ^ i := by
  unfold div_step
  by_cases hskip : r.length ≤ i
  · rw [if_pos hskip]
    refine ⟨rfl, hrn, hqb, fun j hj => hq0 j (by omega), ?_⟩
    calc val r < BASE ^ r.length := valb_lt_pow BASE r hrn.lt
      _ ≤ BASE ^ i := Nat.pow_le_pow_right (by norm_num [BASE]) hskip
      _ = 1 * BASE ^ i := (Nat.one_mul _).symm
      _ ≤ val other * BASE ^ i := Nat.mul_le_mul_right _ hop
  · rw [if_neg hskip]
    push_neg at hskip
    simp only []
    set chunk := range1 r i with hchunk
    have hcn : Norm chunk := Norm_range1 r i hrn.lt
    have hcv : val chunk = val (r.drop i) := val_range1 r i
    have hlow : val (r.take i) < BASE ^ i := by
      have h1 := valb_lt_pow BASE (r.take i) (fun x hx => hrn.lt x (List.take_subset _ _ hx))
      have h2 : (r.take i).length = i := by
        rw [List.length_take]
        omega
      rwa [h2] at h1
    have hdecomp : val r = val (r.take i) + BASE ^ i * val (r.drop i) := by
      have := val_take_drop r i
      rwa [List.length_take, Nat.min_eq_left (by omega)] at this
    have hcb : val chunk < val other * BASE := by
      rw [hcv]
      by_contra hge
      push_neg at hge
      have h1 : val other * BASE ^ (i + 1) ≤ BASE ^ i * val (r.drop i) := by
        calc val other * BASE ^ (i + 1) = BASE ^ i * (val other * BASE) := by
              rw [pow_succ]; ring
          _ ≤ BASE ^ i * val (r.drop i) := Nat.mul_le_mul_left _ hge
      omega
    obtain ⟨hs0v, hs0n⟩ := mulScalar_spec other (est chunk other) hon
    obtain ⟨h1v, h1n, h1le⟩ :=
      div_loop1_spec other chunk hon hcn hop (est chunk other) _ hs0n hs0v
    obtain ⟨h2v, h2n, h2le, h2ub, h2lt⟩ :=
      div_loop2_go_spec other chunk hon hcn hop hcb
        (BASE - 1 - (div_loop1 other chunk (est chunk other)
          (mulScalar other (est chunk other))).1)
        (div_loop1 other chunk (est chunk other) (mulScalar other (est chunk other))).1
        (div_loop1 other chunk (est chunk other) (mulScalar other (est chunk other))).2
        h1n h1v h1le rfl
    have hgo : div_loop2 other chunk
        (div_loop1 other chunk (est chunk other) (mulScalar other (est chunk other))).1
        (div_loop1 other chunk (est chunk other) (mulScalar other (est chunk other))).2
      = div_loop2_go other chunk
        (BASE - 1 - (div_loop1 other chunk (est chunk other)
          (mulScalar other (est chunk other))).1)
        (div_loop1 other chunk (est chunk other) (mulScalar other (est chunk other))).1
        (div_loop1 other chunk (est chunk other) (mulScalar other (est chunk other))).2 := rfl
    rw [← hgo] at h2v h2n h2le h2ub h2lt
    set d2 := (div_loop2 other chunk (div_loop1 other chunk (est chunk other)
      (mulScalar other (est chunk other))).1
      (div_loop1 other chunk (est chunk other) (mulScalar other (est chunk other))).2).1 with hd2
    set s2 := (div_loop2 other chunk (div_loop1 other chunk (est chunk other)
      (mulScalar other (est chunk other))).1
      (div_loop1 other chunk (est chunk other) (mulScalar other (est chunk other))).2).2 with hs2
    have hshlv : val (shl s2 i) = BASE ^ i * (val other * d2) := by
      rw [val_shl, h2v]
    have hshln : Norm (shl s2 i) := Norm_shl _ _ h2n.lt
    have hsub_le : val (shl s2 i) ≤ val r := by
      rw [hshlv, hdecomp]
      have h3 : val other * d2 ≤ val chunk := by
        rw [← h2v]
        exact h2le
      rw [hcv] at h3
      have h4 : BASE ^ i * (val other * d2) ≤ BASE ^ i * val (r.drop i) :=
        Nat.mul_le_mul_left _ h3
      omega
    obtain ⟨hsubv, hsubn⟩ := sub_spec r (shl s2 i) hrn.lt hshln.lt hsub_le
    have htr : trim_check (sub r (shl s2 i)) = sub r (shl s2 i) := hsubn.1
    have hrv' : val (trim_check (sub r (shl s2 i))) = val r - BASE ^ i * (val other * d2) := by
      rw [htr, hsubv, hshlv]
    have hrn' : Norm (trim_check (sub r (shl s2 i))) := by
      rw [htr]
      exact hsubn
    have hbound' : val (trim_check (sub r (shl s2 i))) < val other * BASE ^ i := by
      rw [hrv']
      have hub : val (r.drop i) + 1 ≤ val other * (d2 + 1) := by
        have := h2ub
        rw [hcv] at this
        omega
      have h5 : BASE ^ i * (val (r.drop i) + 1) ≤ BASE ^ i * (val other * (d2 + 1)) :=
        Nat.mul_le_mul_left _ hub
      have h6 : BASE ^ i * (val other * (d2 + 1))
          = BASE ^ i * (val other * d2) + val other * BASE ^ i := by ring
      have h7 : BASE ^ i * (val (r.drop i) + 1) = BASE ^ i * val (r.drop i) + BASE ^ i := by ring
      omega
    by_cases hd2pos : 0 < d2
    · rw [if_pos hd2pos]
      have hqi : q.getD i 0 = 0 := hq0 i (le_refl i)
      have hd2W : d2 < W16 := by
        simp only [BASE] at h2lt
        simp only [W16]
        omega
      have hqv : val (checked_add q i d2) = val q + d2 * BASE ^ i :=
        val_checked_add q i d2 hqi hd2W
      refine ⟨?_, hrn', ?_, ?_, hbound'⟩
      · rw [hqv, hrv']
        have h8 : (val q + d2 * BASE ^ i) * val other
            = val q * val other + BASE ^ i * (val other * d2) := by ring
        rw [h8]
        have h9 : BASE ^ i * (val other * d2) ≤ val r := by
          rw [← hshlv]
          exact hsub_le
        omega
      · intro j
        by_cases hj : j = i
        · subst hj
          rw [checked_add_getD_self, hqi]
          have : (0 + d2) % W16 = d2 := by
            simp only [W16] at hd2W ⊢
            omega
          rw [this]
          exact h2lt
        · rw [checked_add_getD_other _ _ _ _ hj]
          exact hqb j
      · intro j hj
        rw [checked_add_getD_other _ _ _ _ (by omega)]
        exact hq0 j (by omega)
    · rw [if_neg hd2pos]
      have hd2z : d2 = 0 := by omega
      refine ⟨?_, hrn', hqb, fun j hj => hq0 j (by omega), hbound'⟩
      rw [hrv', hd2z]
      simp

lemma div_go_spec (est : List ℕ → List ℕ → ℕ) (other : List ℕ)
    (hon : Norm other) (hop : 0 < val other) : ∀ (i : ℕ) (q r : List ℕ),
    Norm r → (∀ j, q.getD j 0 < BASE) → (∀ j, j ≤ i → q.getD j 0 = 0) →
    val r < val other * BASE ^ (i + 1) →
    val (div_go est other i (q, r)).1 * val other + val (div_go est other i (q, r)).2
      = val q * val other + val r ∧
    Norm (div_go est other i (q, r)).2 ∧
    (∀ j, (div_go est other i (q, r)).1.getD j 0 < BASE) ∧
    val (div_go est other i (q, r)).2 < val other := by
  intro i
  induction i with
  | zero =>
    intro q r hrn hqb hq0 hbound
    obtain ⟨hid, hrn', hqb', _, hb'⟩ := div_step_spec est other 0 q r hon hop hrn hqb hq0 hbound
    simp only [div_go]
    rw [pow_zero, Nat.mul_one] at hb'
    exact ⟨hid, hrn', hqb', hb'⟩
  | succ i ih =>
    intro q r hrn hqb hq0 hbound
    obtain ⟨hid, hrn', hqb', hq0', hb'⟩ :=
      div_step_spec est other (i + 1) q r hon hop hrn hqb hq0 hbound
    have hq0'' : ∀ j, j ≤ i → (div_step est other (i + 1) (q, r)).1.getD j 0 = 0 :=
      fun j hj => hq0' j (by omega)
    obtain ⟨hid2, hrn2, hqb2, hb2⟩ := ih (div_step est other (i + 1) (q, r)).1
      (div_step est other (i + 1) (q, r)).2 hrn' hqb' hq0'' hb'
    simp only [div_go]
    refine ⟨?_, hrn2, hqb2, hb2⟩
    rw [hid2, hid]

/-- Correctness of `integer::div_mod` for every digit estimator: the pair
`(q, r)` satisfies `a = q * d + r` with `0 ≤ r < d`, and both components are
normalized. -/
lemma div_mod_spec (est : List ℕ → List ℕ → ℕ) (a other : List ℕ)
    (ha : Norm a) (hon : Norm other) (hop : 0 < val other) :
    val (div_mod est a other).1 * val other + val (div_mod est a other).2 = val a ∧
    val (div_mod est a other).2 < val other ∧
    Norm (div_mod est a other).1 ∧ Norm (div_mod est a other).2 := by
  have honm : other ≠ [0] := by
    intro h
    rw [h] at hop
    simp [val] at hop
  have honl : other.getLast? ≠ some 0 := hon.last.resolve_left honm
  have hom1 : 1 ≤ other.length := by
    cases other with
    | nil => exact absurd rfl hon.ne_nil
    | cons _ _ => simp
  unfold div_mod
  by_cases hlen : a.length < other.length
  · rw [if_pos hlen]
    have hq : trim_check ([0] : List ℕ) = [0] := by decide
    simp only [hq]
    have hr : trim_check a = a := ha.1
    rw [hr]
    have hva : val a < val other := by
      calc val a < BASE ^ a.length := valb_lt_pow BASE a ha.lt
        _ ≤ BASE ^ (other.length - 1) := Nat.pow_le_pow_right (by norm_num [BASE]) (by omega)
        _ ≤ val other := pow_le_valb BASE other hon.ne_nil honl
    refine ⟨?_, hva, Norm_zero, ha⟩
    simp [val]
  · rw [if_neg hlen]
    push_neg at hlen
    have hbound : val a < val other * BASE ^ (a.length - other.length + 1) := by
      calc val a < BASE ^ a.length := valb_lt_pow BASE a ha.lt
        _ = BASE ^ (other.length - 1) * BASE ^ (a.length - other.length + 1) := by
            rw [← pow_add]
            congr 1
            omega
        _ ≤ val other * BASE ^ (a.length - other.length + 1) :=
            Nat.mul_le_mul_right _ (pow_le_valb BASE other hon.ne_nil honl)
    have hzq : ∀ j, ([0] : List ℕ).getD j 0 < BASE := by
      intro j
      cases j <;> norm_num [BASE]
    have hz0 : ∀ j, j ≤ a.length - other.length → ([0] : List ℕ).getD j 0 = 0 := by
      intro j _
      cases j <;> simp
    obtain ⟨hid, hrn, hqb, hrlt⟩ :=
      div_go_spec est other hon hop (a.length - other.length) [0] a ha hzq hz0 hbound
    have hvq0 : val ([0] : List ℕ) = 0 := by simp [val]
    rw [hvq0, Nat.zero_mul, Nat.zero_add] at hid
    constructor
    · simp only [val, valb_trim_check]
      exact hid
    constructor
    · simp only [val, valb_trim_check]
      exact hrlt
    constructor
    · exact Norm_trim_check _ (getD_lt_of_mem _ hqb)
    · show Norm (trim_check (div_go est other (a.length - other.length) ([0], a)).2)
      rw [hrn.1]
      exact hrn


lemma getD_lt_BASE (a : List ℕ) (ha : ∀ x ∈ a, x < BASE) (j : ℕ) : a.getD j 0 < BASE := by
  by_cases hj : j < a.length
  · rw [List.getD_eq_getElem _ _ hj]
    exact ha _ (List.getElem_mem hj)
  · push_neg at hj
    rw [List.getD_eq_default _ _ hj]
    norm_num [BASE]

lemma getD_eq_headD_drop (a : List ℕ) (i : ℕ) : a.getD i 0 = (a.drop i).headD 0 := by
  induction a generalizing i with
  | nil => simp
  | cons x xs ih =>
    cases i with
    | zero => simp
    | succ i => simpa using ih i

lemma val_drop_succ (a : List ℕ) (i : ℕ) :
    val (a.drop i) = a.getD i 0 + BASE * val (a.drop (i + 1)) := by
  rw [getD_eq_headD_drop]
  have h1 : a.drop (i + 1) = (a.drop i).tail := by
    rw [← List.drop_drop]
    simp [List.drop_one]
  rw [h1]
  exact val_headD_tail BASE (a.drop i)

lemma sdiv_step_facts (a : List ℕ) (s : ℕ) (ha : ∀ x ∈ a, x < BASE)
    (hspos : 0 < s) (hsB : s < BASE_OVERFLOW_CUTOFF) (i rem : ℕ)
    (hrem : rem = val (a.drop (i + 1)) % s) :
    (BASE * rem + a.getD i 0) % W64 = BASE * rem + a.getD i 0 ∧
    (BASE * rem + a.getD i 0) % s = val (a.drop i) % s ∧
    (BASE * rem + a.getD i 0) / s < BASE ∧
    val (a.drop i) / s = BASE * (val (a.drop (i + 1)) / s)
      + (BASE * rem + a.getD i 0) / s := by
  have hai : a.getD i 0 < BASE := getD_lt_BASE a ha i
  have hremlt : rem < s := by
    rw [hrem]
    exact Nat.mod_lt _ hspos
  have hW : (BASE * rem + a.getD i 0) % W64 = BASE * rem + a.getD i 0 := by
    apply Nat.mod_eq_of_lt
    have h64 : (2:ℕ) ^ 64 = 18446744073709551616 := by norm_num
    simp only [BASE, BASE_OVERFLOW_CUTOFF, W64, h64] at hai hremlt hsB ⊢
    omega
  have hdrop := val_drop_succ a i
  have hdec : val (a.drop (i + 1)) = s * (val (a.drop (i + 1)) / s) + rem := by
    rw [hrem]
    exact (Nat.div_add_mod _ s).symm
  have hshape : a.getD i 0 + BASE * (s * (val (a.drop (i + 1)) / s) + rem)
      = s * (BASE * (val (a.drop (i + 1)) / s)) + (BASE * rem + a.getD i 0) := by ring
  have hmod : (BASE * rem + a.getD i 0) % s = val (a.drop i) % s := by
    conv_rhs => rw [hdrop, hdec, hshape, Nat.mul_add_mod]
  have hdig : (BASE * rem + a.getD i 0) / s < BASE := by
    rw [Nat.div_lt_iff_lt_mul hspos]
    have h2 : BASE * rem + BASE ≤ BASE * s := by
      have h3 : BASE * (rem + 1) ≤ BASE * s := Nat.mul_le_mul_left _ (by omega)
      have h4 : BASE * (rem + 1) = BASE * rem + BASE := by ring
      omega
    have h5 : BASE * s = s * BASE := Nat.mul_comm _ _
    omega
  have hqdiv : val (a.drop i) / s = BASE * (val (a.drop (i + 1)) / s)
      + (BASE * rem + a.getD i 0) / s := by
    conv_lhs => rw [hdrop, hdec, hshape, Nat.mul_add_div hspos]
  exact ⟨hW, hmod, hdig, hqdiv⟩

lemma sdiv_go_spec (a : List ℕ) (s : ℕ) (ha : ∀ x ∈ a, x < BASE)
    (hspos : 0 < s) (hsB : s < BASE_OVERFLOW_CUTOFF) : ∀ (i : ℕ) (q : List ℕ) (rem : ℕ),
    rem = val (a.drop (i + 1)) % s →
    val q = val (a.drop (i + 1)) / s * BASE ^ (i + 1) →
    (∀ j, j ≤ i → q.getD j 0 = 0) → (∀ j, q.getD j 0 < BASE) →
    (sdiv_go a s i q rem).2 = val a % s ∧
    val (sdiv_go a s i q rem).1 = val a / s ∧
    (∀ j, (sdiv_go a s i q rem).1.getD j 0 < BASE) := by
  intro i
  induction i with
  | zero =>
    intro q rem hrem hq hq0 hqb
    obtain ⟨hW, hmod, hdig, hqdiv⟩ := sdiv_step_facts a s ha hspos hsB 0 rem hrem
    simp only [sdiv_go, hW]
    have hdrop0 : a.drop 0 = a := List.drop_zero a
    rw [hdrop0] at hmod hqdiv
    by_cases hc : s ≤ BASE * rem + a.getD 0 0
    · rw [if_pos hc]
      have hdigW : (BASE * rem + a.getD 0 0) / s < W16 := by
        simp only [BASE, W16] at hdig ⊢
        omega
      have hvq' := val_checked_add q 0 ((BASE * rem + a.getD 0 0) / s) (hq0 0 (le_refl 0)) hdigW
      refine ⟨hmod, ?_, ?_⟩
      · show val (checked_add q 0 ((BASE * rem + a.getD 0 0) / s)) = val a / s
        rw [hvq', hq, hqdiv]
        ring
      · intro j
        show (checked_add q 0 ((BASE * rem + a.getD 0 0) / s)).getD j 0 < BASE
        by_cases hj : j = 0
        · subst hj
          rw [checked_add_getD_self, hq0 0 (le_refl 0)]
          have hmm : (0 + (BASE * rem + a.getD 0 0) / s) % W16
              = (BASE * rem + a.getD 0 0) / s := by
            rw [Nat.zero_add]
            apply Nat.mod_eq_of_lt
            simp only [BASE, W16] at hdig ⊢
            omega
          rw [hmm]
          exact hdig
        · rw [checked_add_getD_other _ _ _ _ hj]
          exact hqb j
    · rw [if_neg hc]
      push_neg at hc
      refine ⟨?_, ?_, hqb⟩
      · show BASE * rem + a.getD 0 0 = val a % s
        rw [← hmod]
        exact (Nat.mod_eq_of_lt hc).symm
      · show val q = val a / s
        rw [hq, hqdiv, Nat.div_eq_of_lt hc]
        ring
  | succ i ih =>
    intro q rem hrem hq hq0 hqb
    obtain ⟨hW, hmod, hdig, hqdiv⟩ := sdiv_step_facts a s ha hspos hsB (i + 1) rem hrem
    simp only [sdiv_go, hW]
    by_cases hc : s ≤ BASE * rem + a.getD (i + 1) 0
    · rw [if_pos hc]
      have hdigW : (BASE * rem + a.getD (i + 1) 0) / s < W16 := by
        simp only [BASE, W16] at hdig ⊢
        omega
      have hvq' := val_checked_add q (i + 1) ((BASE * rem + a.getD (i + 1) 0) / s)
        (hq0 (i + 1) (le_refl _)) hdigW
      apply ih
      · rw [hmod]
      · rw [hvq', hq, hqdiv]
        ring
      · intro j hj
        rw [checked_add_getD_other _ _ _ _ (by omega)]
        exact hq0 j (by omega)
      · intro j
        by_cases hj : j = i + 1
        · subst hj
          rw [checked_add_getD_self, hq0 (i + 1) (le_refl _)]
          have hmm : (0 + (BASE * rem + a.getD (i + 1) 0) / s) % W16
              = (BASE * rem + a.getD (i + 1) 0) / s := by
            rw [Nat.zero_add]
            apply Nat.mod_eq_of_lt
            simp only [BASE, W16] at hdig ⊢
            omega
          rw [hmm]
          exact hdig
        · rw [checked_add_getD_other _ _ _ _ hj]
          exact hqb j
    · rw [if_neg hc]
      push_neg at hc
      apply ih
      · rw [← hmod]
        exact (Nat.mod_eq_of_lt hc).symm
      · rw [hq, hqdiv, Nat.div_eq_of_lt hc]
        ring
      · intro j hj
        exact hq0 j (by omega)
      · exact hqb

lemma to_uint64_spec (l : List ℕ) : to_uint64 l = val l % W64 := by
  induction l with
  | nil => simp [to_uint64, val]
  | cons x xs ih =>
    show (BASE * to_uint64 xs + x) % W64 = val (x :: xs) % W64
    rw [ih]
    have h2 : val (x :: xs) = BASE * val xs + x := by
      simp only [val, valb_cons]
      ring
    rw [h2]
    exact (Nat.ModEq.mul_left BASE (Nat.mod_modEq (val xs) W64)).add_right x

/-- `integer::div_mod(uint64_t)` agrees with exact division of the value. -/
lemma divModScalar_spec (est : List ℕ → List ℕ → ℕ) (a : List ℕ) (s : ℕ)
    (ha : Norm a) (hspos : 0 < s) (hs64 : s < W64) :
    val (divModScalar est a s).1 = val a / s ∧ (divModScalar est a s).2 = val a % s ∧
    Norm (divModScalar est a s).1 := by
  unfold divModScalar
  by_cases hB : BASE_OVERFLOW_CUTOFF ≤ s
  · rw [if_pos hB]
    obtain ⟨hiv, hin⟩ := init_spec s
    have hop : 0 < val (init s) := by rw [hiv]; exact hspos
    obtain ⟨hid, hlt, hqn, hrn⟩ := div_mod_spec est a (init s) ha hin hop
    rw [hiv] at hid hlt
    have hdiv : val (div_mod est a (init s)).1 = val a / s := by
      rw [← hid]
      have h3 : val (div_mod est a (init s)).1 * s + val (div_mod est a (init s)).2
          = s * val (div_mod est a (init s)).1 + val (div_mod est a (init s)).2 := by ring
      rw [h3, Nat.mul_add_div hspos, Nat.div_eq_of_lt hlt]
      omega
    have hmod : val (div_mod est a (init s)).2 = val a % s := by
      rw [← hid]
      have h3 : val (div_mod est a (init s)).1 * s + val (div_mod est a (init s)).2
          = s * val (div_mod est a (init s)).1 + val (div_mod est a (init s)).2 := by ring
      rw [h3, Nat.mul_add_mod, Nat.mod_eq_of_lt hlt]
    refine ⟨hdiv, ?_, hqn⟩
    show to_uint64 (div_mod est a (init s)).2 = val a % s
    rw [to_uint64_spec, hmod]
    exact Nat.mod_eq_of_lt (lt_trans (Nat.mod_lt _ hspos) hs64)
  · rw [if_neg hB]
    push_neg at hB
    have hlen1 : 1 ≤ a.length := by
      cases a with
      | nil => exact absurd rfl ha.ne_nil
      | cons _ _ => simp
    have hdropn : a.drop (a.length - 1 + 1) = [] := by
      apply List.drop_eq_nil_of_le
      omega
    have hz0 : ∀ j, j ≤ a.length - 1 → ([0] : List ℕ).getD j 0 = 0 := by
      intro j _
      cases j <;> simp
    have hzb : ∀ j, ([0] : List ℕ).getD j 0 < BASE := by
      intro j
      cases j <;> norm_num [BASE]
    obtain ⟨hrem, hqv, hqb⟩ := sdiv_go_spec a s ha.lt hspos hB (a.length - 1) [0] 0
      (by rw [hdropn]; simp [val]) (by rw [hdropn]; simp [val]) hz0 hzb
    refine ⟨?_, ?_, ?_⟩
    · show val (trim_check (sdiv_go a s (a.length - 1) [0] 0).1) = val a / s
      unfold val
      rw [valb_trim_check]
      exact hqv
    · exact hrem
    · show Norm (trim_check (sdiv_go a s (a.length - 1) [0] 0).1)
      exact Norm_trim_check _ (getD_lt_of_mem _ hqb)

/-- `integer::operator%(uint64_t)` agrees with the value modulo. -/
lemma modScalar_spec (est : List ℕ → List ℕ → ℕ) (a : List ℕ) (s : ℕ)
    (ha : Norm a) (hspos : 0 < s) (hs64 : s < W64) :
    modScalar est a s = val a % s := by
  unfold modScalar
  by_cases hdvd : BASE % s = 0
  · rw [if_pos hdvd]
    rcases Nat.dvd_of_mod_eq_zero hdvd with ⟨k, hk⟩
    have hval : val a = a.headD 0 + BASE * val a.tail := val_headD_tail BASE a
    rw [hval, hk]
    have hsh : a.headD 0 + s * k * val a.tail = s * (k * val a.tail) + a.headD 0 := by ring
    rw [hsh, Nat.mul_add_mod]
  · rw [if_neg hdvd]
    by_cases hB : BASE_OVERFLOW_CUTOFF ≤ s
    · rw [if_pos hB]
      obtain ⟨hiv, hin⟩ := init_spec s
      have hop : 0 < val (init s) := by rw [hiv]; exact hspos
      obtain ⟨hid, hlt, hqn, hrn⟩ := div_mod_spec est a (init s) ha hin hop
      rw [hiv] at hid hlt
      have hmod : val (div_mod est a (init s)).2 = val a % s := by
        rw [← hid]
        have h3 : val (div_mod est a (init s)).1 * s + val (div_mod est a (init s)).2
            = s * val (div_mod est a (init s)).1 + val (div_mod est a (init s)).2 := by ring
        rw [h3, Nat.mul_add_mod, Nat.mod_eq_of_lt hlt]
      rw [to_uint64_spec, hmod]
      exact Nat.mod_eq_of_lt (lt_trans (Nat.mod_lt _ hspos) hs64)
    · rw [if_neg hB]
      push_neg at hB
      have key : ∀ l : List ℕ, (∀ x ∈ l, x < BASE) →
          (l.foldr (fun v rem =>
            let r := (BASE * rem + v) % W64
            if BASE_OVERFLOW_CUTOFF ≤ r then r % s else r) 0) % s = valb BASE l % s ∧
          (l.foldr (fun v rem =>
            let r := (BASE * rem + v) % W64
            if BASE_OVERFLOW_CUTOFF ≤ r then r % s else r) 0) < BASE_OVERFLOW_CUTOFF := by
        intro l
        induction l with
        | nil =>
          intro _
          constructor
          · simp
          · norm_num [BASE_OVERFLOW_CUTOFF, W64, BASE]
        | cons x xs ih =>
          intro hl
          obtain ⟨ihm, ihb⟩ := ih (fun y hy => hl y (by simp [hy]))
          have hx : x < BASE := hl x (by simp)
          set R := xs.foldr (fun v rem =>
            let r := (BASE * rem + v) % W64
            if BASE_OVERFLOW_CUTOFF ≤ r then r % s else r) 0 with hR
          have hWid : (BASE * R + x) % W64 = BASE * R + x := by
            apply Nat.mod_eq_of_lt
            have h64 : (2:ℕ) ^ 64 = 18446744073709551616 := by norm_num
            simp only [BASE, BASE_OVERFLOW_CUTOFF, W64, h64] at hx ihb ⊢
            omega
          have hcong : (BASE * R + x) % s = valb BASE (x :: xs) % s := by
            have h1 : BASE * R + x ≡ BASE * valb BASE xs + x [MOD s] := by
              apply Nat.ModEq.add_right
              apply Nat.ModEq.mul_left
              exact ihm
            have h2 : valb BASE (x :: xs) = BASE * valb BASE xs + x := by
              rw [valb_cons]; ring
            rw [h2]
            exact h1
          show ((fun v rem =>
              let r := (BASE * rem + v) % W64
              if BASE_OVERFLOW_CUTOFF ≤ r then r % s else r) x R) % s
              = valb BASE (x :: xs) % s ∧
            ((fun v rem =>
              let r := (BASE * rem + v) % W64
              if BASE_OVERFLOW_CUTOFF ≤ r then r % s else r) x R) < BASE_OVERFLOW_CUTOFF
          simp only [hWid]
          by_cases hr : BASE_OVERFLOW_CUTOFF ≤ BASE * R + x
          · rw [if_pos hr]
            constructor
            · rw [Nat.mod_mod_of_dvd _ (dvd_refl s)]
              exact hcong
            · exact lt_of_lt_of_le (Nat.mod_lt _ hspos) (le_of_lt hB)
          · rw [if_neg hr]
            push_neg at hr
            exact ⟨hcong, hr⟩
      obtain ⟨hm, _⟩ := key a ha.lt
      exact hm


/-- Uniqueness of positional representation with no leading zero, in any
base `b > 1`. -/
lemma valb_inj_gen (b : ℕ) (hb : 1 < b) : ∀ (u v : List ℕ),
    (∀ d ∈ u, d < b) → (∀ d ∈ v, d < b) →
    u.getLast? ≠ some 0 → v.getLast? ≠ some 0 → valb b u = valb b v → u = v := by
  intro u
  induction u with
  | nil =>
    intro v _ _ _ hv0 hval
    cases v with
    | nil => rfl
    | cons c cs =>
      exfalso
      have := valb_pos b (by omega) (c :: cs) (by simp) hv0
      simp only [valb_nil] at hval
      omega
  | cons a as ih =>
    intro v hu hv hu0 hv0 hval
    cases v with
    | nil =>
      exfalso
      have := valb_pos b (by omega) (a :: as) (by simp) hu0
      simp only [valb_nil] at hval
      omega
    | cons c cs =>
      have ha : a < b := hu a (by simp)
      have hc : c < b := hv c (by simp)
      simp only [valb_cons] at hval
      have hac : a = c := by
        have h1 : (a + b * valb b as) % b = a := by
          rw [Nat.add_mul_mod_self_left, Nat.mod_eq_of_lt ha]
        have h2 : (c + b * valb b cs) % b = c := by
          rw [Nat.add_mul_mod_self_left, Nat.mod_eq_of_lt hc]
        rw [← h1, ← h2, hval]
      subst hac
      have htail : valb b as = valb b cs := by
        have hp : (0:ℕ) < b := by omega
        exact Nat.eq_of_mul_eq_mul_left hp (Nat.add_left_cancel hval)
      cases as with
      | nil =>
        cases cs with
        | nil => rfl
        | cons e es =>
          exfalso
          have hcs0 : (e :: es).getLast? ≠ some 0 := by
            rwa [List.getLast?_cons_cons] at hv0
          have := valb_pos b (by omega) (e :: es) (by simp) hcs0
          simp only [valb_nil] at htail
          omega
      | cons e es =>
        cases cs with
        | nil =>
          exfalso
          have has0 : (e :: es).getLast? ≠ some 0 := by
            rwa [List.getLast?_cons_cons] at hu0
          have := valb_pos b (by omega) (e :: es) (by simp) has0
          simp only [valb_nil] at htail
          omega
        | cons f fs =>
          have has0 : (e :: es).getLast? ≠ some 0 := by
            rwa [List.getLast?_cons_cons] at hu0
          have hcs0 : (f :: fs).getLast? ≠ some 0 := by
            rwa [List.getLast?_cons_cons] at hv0
          have := ih (f :: fs) (fun d hd => hu d (by simp [hd]))
            (fun d hd => hv d (by simp [hd])) has0 hcs0 htail
          rw [this]

lemma packLimbs_spec : ∀ (n : ℕ) (ds : List ℕ), ds.length ≤ n → (∀ d ∈ ds, d < 10) →
    valb BASE (packLimbs ds) = valb 10 ds ∧ ∀ x ∈ packLimbs ds, x < BASE := by
  intro n
  induction n with
  | zero =>
    intro ds hlen _
    have : ds = [] := List.eq_nil_of_length_eq_zero (by omega)
    subst this
    simp [packLimbs]
  | succ n ih =>
    intro ds hlen hd
    rcases ds with _ | ⟨a, _ | ⟨b, _ | ⟨c, _ | ⟨d, rest⟩⟩⟩⟩
    · simp [packLimbs]
    · have ha := hd a (by simp)
      constructor
      · simp [packLimbs]
      · intro x hx
        simp [packLimbs] at hx
        simp only [BASE]
        omega
    · have ha := hd a (by simp)
      have hb := hd b (by simp)
      constructor
      · simp only [packLimbs, valb_cons, valb_nil, BASE]
        ring
      · intro x hx
        simp [packLimbs] at hx
        simp only [BASE]
        omega
    · have ha := hd a (by simp)
      have hb := hd b (by simp)
      have hc := hd c (by simp)
      constructor
      · simp only [packLimbs, valb_cons, valb_nil, BASE]
        ring
      · intro x hx
        simp [packLimbs] at hx
        simp only [BASE]
        omega
    · have ha := hd a (by simp)
      have hb := hd b (by simp)
      have hc := hd c (by simp)
      have hdd := hd d (by simp)
      have hrest : ∀ x ∈ rest, x < 10 := by
        intro x hx
        apply hd
        simp [hx]
      have hlen' : rest.length ≤ n := by
        simp only [List.length_cons] at hlen
        omega
      obtain ⟨ihv, ihb⟩ := ih rest hlen' hrest
      constructor
      · simp only [packLimbs, valb_cons, ihv, BASE] at *
        ring
      · intro x hx
        simp only [packLimbs] at hx
        rcases List.mem_cons.mp hx with h | hx
        · simp only [BASE]
          omega
        · exact ihb x hx

lemma limbsDigits_spec : ∀ (l : List ℕ), (∀ x ∈ l, x < BASE) →
    valb 10 (limbsDigits l) = valb BASE l ∧ (∀ d ∈ limbsDigits l, d < 10) := by
  intro l
  induction l with
  | nil => simp [limbsDigits]
  | cons v vs ih =>
    intro hl
    have hv : v < BASE := hl v (by simp)
    have hvs : ∀ x ∈ vs, x < BASE := fun x hx => hl x (by simp [hx])
    obtain ⟨ihv, ihd⟩ := ih hvs
    constructor
    · show valb 10 (limbDigits v ++ limbsDigits vs) = valb BASE (v :: vs)
      rw [valb_append, ihv]
      have hlen : (limbDigits v).length = 4 := rfl
      rw [hlen]
      have hv4 : valb 10 (limbDigits v) = v := by
        show v % 10 + 10 * (v / 10 % 10 + 10 * (v / 100 % 10 + 10 * (v / 1000 % 10 + 10 * 0))) = v
        simp only [BASE] at hv
        omega
      rw [hv4]
      simp only [valb_cons, BASE]
      norm_num
    · intro d hd
      rcases List.mem_append.mp hd with hd | hd
      · have : d ∈ [v % 10, v / 10 % 10, v / 100 % 10, v / 1000 % 10] := hd
        simp at this
        rcases this with rfl | rfl | rfl | rfl <;> omega
      · exact ihd d hd

lemma fromDigits_spec (s : List ℕ) (h : ∀ d ∈ s, d < 10) :
    val (fromDigits s) = valb 10 s.reverse ∧ Norm (fromDigits s) := by
  unfold fromDigits
  by_cases hs : s = []
  · rw [if_pos hs, hs]
    constructor
    · simp [val, trim_check_zero]
    · rw [trim_check_zero]
      exact Norm_zero
  · rw [if_neg hs]
    have hrev : ∀ d ∈ s.reverse, d < 10 := fun d hd => h d (List.mem_reverse.mp hd)
    obtain ⟨hv, hb⟩ := packLimbs_spec s.reverse.length s.reverse (le_refl _) hrev
    constructor
    · unfold val
      rw [valb_trim_check, hv]
    · exact Norm_trim_check _ hb

lemma to_string_cons (v : ℕ) (vs : List ℕ) :
    to_string (v :: vs) = (match stripTrail (limbsDigits (v :: vs)) with
      | [] => [0]
      | r => r).reverse := rfl

lemma to_string_core (l : List ℕ) (hl : Norm l) :
    ∃ r : List ℕ, to_string l = r.reverse ∧ valb 10 r = val l ∧ (∀ d ∈ r, d < 10) ∧
      (r = [0] ∨ (r ≠ [] ∧ r.getLast? ≠ some 0)) := by
  cases l with
  | nil => exact absurd rfl hl.ne_nil
  | cons v vs =>
    obtain ⟨hdv, hdd⟩ := limbsDigits_spec (v :: vs) hl.lt
    cases h : stripTrail (limbsDigits (v :: vs)) with
    | nil =>
      refine ⟨[0], ?_, ?_, ?_, Or.inl rfl⟩
      · rw [to_string_cons, h]
      · have h1 := valb_stripTrail 10 (limbsDigits (v :: vs))
        rw [h] at h1
        simp only [valb_nil] at h1
        unfold val
        rw [← hdv, ← h1]
        simp
      · intro d hd
        simp at hd
        omega
    | cons r0 rs =>
      refine ⟨r0 :: rs, ?_, ?_, ?_, Or.inr ⟨by simp, ?_⟩⟩
      · rw [to_string_cons, h]
      · have h1 := valb_stripTrail 10 (limbsDigits (v :: vs))
        rw [h] at h1
        rw [h1, hdv]
        rfl
      · intro d hd
        exact hdd d (stripTrail_mem _ d (h ▸ hd))
      · rw [← h]
        exact stripTrail_getLast _

lemma head?_ne_zero (s : List ℕ) (hne : s ≠ []) (hlead : s.headD 0 ≠ 0) :
    s.reverse.getLast? ≠ some 0 := by
  rw [List.getLast?_reverse]
  cases s with
  | nil => exact absurd rfl hne
  | cons x xs =>
    simp only [List.head?_cons]
    intro hcon
    apply hlead
    simpa using hcon

/-- Round trip: parsing a digit string with no leading zero (or `[0]`) and
serializing it gives back the same digit string. -/
lemma roundtrip_spec (s : List ℕ) (hd : ∀ d ∈ s, d < 10) (hne : s ≠ [])
    (hlead : s.headD 0 ≠ 0 ∨ s = [0]) : to_string (fromDigits s) = s := by
  rcases hlead with hlead | hzero
  · obtain ⟨hfv, hfn⟩ := fromDigits_spec s hd
    obtain ⟨r, hts, hrv, hrd, hrl⟩ := to_string_core (fromDigits s) hfn
    have hval : valb 10 r = valb 10 s.reverse := by rw [hrv, hfv]
    have hsrev_last : s.reverse.getLast? ≠ some 0 := head?_ne_zero s hne hlead
    have hsrev_d : ∀ d ∈ s.reverse, d < 10 := fun d hdm => hd d (List.mem_reverse.mp hdm)
    have hsrev_ne : s.reverse ≠ [] := by
      intro hcon
      exact hne (by simpa using congrArg List.reverse hcon)
    rcases hrl with rfl | ⟨hrne, hrlast⟩
    · exfalso
      have hpos := valb_pos 10 (by omega) s.reverse hsrev_ne hsrev_last
      have h0 : valb 10 ([0] : List ℕ) = 0 := by simp
      rw [h0] at hval
      omega
    · have := valb_inj_gen 10 (by omega) r s.reverse hrd hsrev_d hrlast hsrev_last hval
      rw [hts, this]
      exact List.reverse_reverse s
  · subst hzero
    decide

/-- The serialized output never has a leading zero, except the single digit
`0` itself. -/
lemma to_string_no_leading (l : List ℕ) (hl : Norm l) :
    to_string l = [0] ∨ (to_string l).headD 0 ≠ 0 := by
  obtain ⟨r, hts, _, _, hrl⟩ := to_string_core l hl
  rcases hrl with rfl | ⟨hrne, hrlast⟩
  · left
    rw [hts]
    rfl
  · right
    rw [hts]
    rcases h : r.getLast? with _ | k
    · exfalso
      rw [List.getLast?_eq_none_iff] at h
      exact hrne h
    · have hk : k ≠ 0 := by
        intro hcon
        rw [hcon] at h
        exact hrlast h
      have : r.reverse.head? = some k := by
        rw [List.head?_reverse, h]
      rw [List.headD_eq_head?_getD, this]
      simpa using hk

end Integer

section SanityChecks

example : Integer.trim_check [3, 0, 0] = [3] := by decide
example : Integer.trim_check [] = [0] := by decide
example : Integer.trim_check [0, 0] = [0] := by decide
example : Integer.add [9999, 1] [2] = [1, 2] := by decide
example : Integer.sub [1, 2] [2] = [9999, 1] := by decide
example : Integer.compare [5, 3] [6, 3] = -1 := by decide
example : Integer.compare [5, 3] [5, 3] = 0 := by decide
example : Integer.compare [5] [5, 3] = -1 := by decide
example : Integer.shl [7] 2 = [0, 0, 7] := by decide
example : Integer.val [2345, 1] = 12345 := by decide
example : Integer.fromDigits [1, 2, 3, 4, 5] = [2345, 1] := by decide
example : Integer.fromDigits [] = [0] := by decide
example : Integer.to_string [2345, 1] = [1, 2, 3, 4, 5] := by decide
example : Integer.to_string [0] = [0] := by decide
example : Integer.to_uint64 [2345, 1] = 12345 := by decide
example : Integer.checked_add [5] 2 7 = [5, 0, 7] := by decide

end SanityChecks

namespace FFT

/-- Model of std::polar: the complex number of magnitude m and argument a.
The C++ code computes with double-precision floats; the model uses exact
reals, per the spec's numerical rationale that the root values are the
mathematical ones up to rounding. -/
noncomputable def polar (m a : ℝ) : ℂ := ⟨m * Real.cos a, m * Real.sin a⟩

/-- One iteration of the growth loop of prepare_roots: with the table
holding n = 2 ^ length valid entries, positions n + r for r < n are
filled; an even offset r copies entry (n + r) / 2 of the old table
(roots[2 * index] = roots[index] with index = (n + r) / 2), and an odd
offset is set by direct polar evaluation of the angle
min_angle * (2 * i + 1) = pi * r / n, where min_angle = 2 * pi / (2 * n)
and r = 2 * i + 1. -/
noncomputable def grow (t : List ℂ) : List ℂ :=
  t ++ (List.range t.length).map (fun r =>
    if r % 2 = 0 then t.getD ((t.length + r) / 2) 0
    else polar 1 (Real.pi * r / t.length))

/-- The twiddle table after L growth iterations, starting from the initial
table {{0, 0}, {1, 0}} of the C++ source. -/
noncomputable def roots_table : ℕ → List ℂ
  | 0 => [0, 1]
  | L + 1 => grow (roots_table L)

lemma roots_table_length (L : ℕ) : (roots_table L).length = 2 ^ (L + 1) := by
  induction L with
  | zero => rfl
  | succ L ih =>
    show (grow (roots_table L)).length = 2 ^ (L + 2)
    unfold grow
    rw [List.length_append, List.length_map, List.length_range, ih]
    ring

lemma roots_table_stable (L j : ℕ) (hj : j < 2 ^ (L + 1)) :
    (roots_table (L + 1)).getD j 0 = (roots_table L).getD j 0 := by
  show (grow (roots_table L)).getD j 0 = _
  unfold grow
  rw [List.getD_append _ _ _ _ (by rw [roots_table_length]; exact hj)]

lemma grow_getD_hi (t : List ℂ) (r : ℕ) (hr : r < t.length) :
    (grow t).getD (t.length + r) 0 =
      if r % 2 = 0 then t.getD ((t.length + r) / 2) 0
      else polar 1 (Real.pi * r / t.length) := by
  unfold grow
  rw [List.getD_append_right _ _ _ _ (Nat.le_add_right _ _)]
  rw [Nat.add_sub_cancel_left]
  rw [List.getD_eq_getElem _ _ (by simpa using hr)]
  simp

lemma polar_one_eq_exp (a : ℝ) : polar 1 a = Complex.exp ((a : ℂ) * Complex.I) := by
  rw [Complex.exp_mul_I, ← Complex.ofReal_cos, ← Complex.ofReal_sin]
  apply Complex.ext
  · simp [polar, Complex.cos_ofReal_re]
  · simp [polar, Complex.sin_ofReal_re]

lemma roots_table_getD (L : ℕ) : ∀ l i, l ≤ L → i < 2 ^ l →
    (roots_table L).getD (2 ^ l + i) 0 =
      Complex.exp ((Real.pi * i / 2 ^ l : ℝ) * Complex.I) := by
  induction L with
  | zero =>
    intro l i hl hi
    have hl0 : l = 0 := Nat.le_zero.mp hl
    subst hl0
    have hi0 : i = 0 := by omega
    subst hi0
    show ([0, 1] : List ℂ).getD 1 0 = _
    rw [List.getD_cons_succ, List.getD_cons_zero]
    norm_num [Complex.exp_zero]
  | succ L ih =>
    intro l i hl hi
    rcases Nat.lt_or_ge l (L + 1) with hlt | hge
    · have h1 : 2 ^ l + i < 2 ^ (l + 1) := by
        rw [pow_succ]
        omega
      have h2 : 2 ^ (l + 1) ≤ 2 ^ (L + 1) :=
        Nat.pow_le_pow_right (by norm_num) (by omega)
      rw [roots_table_stable L _ (by omega)]
      exact ih l i (by omega) hi
    · have hl1 : l = L + 1 := by omega
      subst hl1
      have hn : (roots_table L).length = 2 ^ (L + 1) := roots_table_length L
      have hgd := grow_getD_hi (roots_table L) i (by rw [hn]; exact hi)
      rw [hn] at hgd
      show (grow (roots_table L)).getD (2 ^ (L + 1) + i) 0 = _
      rw [hgd]
      by_cases hpar : i % 2 = 0
      · rw [if_pos hpar]
        obtain ⟨t, rfl⟩ : ∃ t, i = 2 * t := ⟨i / 2, by omega⟩
        have hdiv : (2 ^ (L + 1) + 2 * t) / 2 = 2 ^ L + t := by
          rw [pow_succ]
          omega
        have ht : t < 2 ^ L := by
          rw [pow_succ] at hi
          omega
        rw [hdiv, ih L t (le_refl L) ht]
        congr 1
        push_cast
        rw [pow_succ]
        field_simp
        ring
      · rw [if_neg hpar, polar_one_eq_exp]
        congr 1
        push_cast
        ring

lemma roots_table_getD_zero (L : ℕ) : (roots_table L).getD 0 0 = 0 := by
  induction L with
  | zero => rfl
  | succ L ih =>
    rw [roots_table_stable L 0 (by positivity)]
    exact ih

lemma roots_table_evens_aux (M l i : ℕ) (hlM : l ≤ M) (hi : i < 2 ^ l) :
    (roots_table (M + 1)).getD (2 * (2 ^ l + i)) 0
      = (roots_table M).getD (2 ^ l + i) 0 := by
  have h2j : 2 * (2 ^ l + i) = 2 ^ (l + 1) + 2 * i := by
    rw [pow_succ]
    ring
  rw [h2j,
      roots_table_getD (M + 1) (l + 1) (2 * i) (by omega) (by rw [pow_succ]; omega),
      roots_table_getD M l i hlM hi]
  congr 1
  push_cast
  rw [pow_succ]
  field_simp
  ring

lemma roots_table_evens (M j : ℕ) (hj : j < 2 ^ (M + 1)) :
    (roots_table (M + 1)).getD (2 * j) 0 = (roots_table M).getD j 0 := by
  rcases Nat.eq_zero_or_pos j with rfl | hjpos
  · rw [Nat.mul_zero, roots_table_getD_zero, roots_table_getD_zero]
  · have h2 : 2 ^ Nat.log 2 j ≤ j := Nat.pow_log_le_self 2 (by omega)
    have h3 : j < 2 ^ (Nat.log 2 j + 1) := Nat.lt_pow_succ_log_self (by norm_num) j
    have hlM : Nat.log 2 j ≤ M := by
      by_contra hcon
      have : 2 ^ (M + 1) ≤ 2 ^ Nat.log 2 j :=
        Nat.pow_le_pow_right (by norm_num) (by omega)
      omega
    have haux := roots_table_evens_aux M (Nat.log 2 j) (j - 2 ^ Nat.log 2 j) hlM
      (by rw [pow_succ] at h3; omega)
    have hjeq : 2 ^ Nat.log 2 j + (j - 2 ^ Nat.log 2 j) = j := by omega
    rw [hjeq] at haux
    exact haux

/-- The root value the spec's sentence asserts for roots[k + i], reading the
leading i of the exponent as the imaginary unit: exp(i * pi * (2 i + 1) / k). -/
noncomputable def spec_root (k i : ℕ) : ℂ :=
  Complex.exp ((Real.pi * (2 * i + 1) / k : ℝ) * Complex.I)

lemma roots_table_one_three : (roots_table 1).getD 3 0 = Complex.I := by
  have h := roots_table_getD 1 1 1 (le_refl 1) (by norm_num)
  have hidx : (2:ℕ) ^ 1 + 1 = 3 := by norm_num
  rw [hidx] at h
  have harg : (Real.pi * ((1:ℕ):ℝ) / (2:ℝ) ^ (1:ℕ) : ℝ) = Real.pi / 2 := by
    push_cast
    ring
  rw [h, ← polar_one_eq_exp, harg]
  apply Complex.ext
  · show 1 * Real.cos (Real.pi / 2) = Complex.I.re
    rw [Real.cos_pi_div_two, Complex.I_re, mul_zero]
  · show 1 * Real.sin (Real.pi / 2) = Complex.I.im
    rw [Real.sin_pi_div_two, Complex.I_im, mul_one]

lemma spec_root_two_one : spec_root 2 1 = -Complex.I := by
  unfold spec_root
  rw [← polar_one_eq_exp]
  have harg : (Real.pi * (2 * ((1:ℕ):ℝ) + 1) / ((2:ℕ):ℝ) : ℝ)
      = Real.pi + Real.pi / 2 := by
    push_cast
    ring
  rw [harg]
  apply Complex.ext
  · show 1 * Real.cos (Real.pi + Real.pi / 2) = (-Complex.I).re
    rw [Real.cos_add, Real.cos_pi, Real.sin_pi, Real.cos_pi_div_two,
        Real.sin_pi_div_two]
    simp
  · show 1 * Real.sin (Real.pi + Real.pi / 2) = (-Complex.I).im
    rw [Real.sin_add, Real.cos_pi, Real.sin_pi, Real.cos_pi_div_two,
        Real.sin_pi_div_two]
    simp

end FFT

/-- Claim C1: for every normalized integer a and every normalized divisor
other with positive value, div_mod returns a pair (q, r) with
a = q * other + r and 0 <= r < other (r is a natural number, so 0 <= r holds
by typing); operator/ returns q and operator% returns r.  The theorem is
proved for every digit estimator est, which in particular covers the
double-precision estimate_div of the source: the two bounded correction
loops make the quotient digit exact at every position regardless of the
estimate. -/
theorem c1_division_identity (est : List ℕ → List ℕ → ℕ) (a other : List ℕ)
    (ha : Integer.Norm a) (hon : Integer.Norm other) (hop : 0 < Integer.val other) :
    Integer.val (Integer.divI est a other) * Integer.val other
        + Integer.val (Integer.modI est a other) = Integer.val a ∧
    Integer.val (Integer.modI est a other) < Integer.val other := by
  obtain ⟨h1, h2, _, _⟩ := Integer.div_mod_spec est a other ha hon hop
  exact ⟨h1, h2⟩

/-- Witness for C1 at a = 30005, other = 7, with the constant-zero
estimator. -/
theorem c1_division_identity_witness :
    Integer.val (Integer.divI (fun _ _ => 0) [5, 3] [7]) * Integer.val [7]
        + Integer.val (Integer.modI (fun _ _ => 0) [5, 3] [7]) = Integer.val [5, 3] ∧
    Integer.val (Integer.modI (fun _ _ => 0) [5, 3] [7]) < Integer.val [7] :=
  c1_division_identity (fun _ _ => 0) [5, 3] [7] (by decide) (by decide) (by decide)

/-- Claim C2: for normalized operands with a.length <= b.length (the state
after the swap at the top of operator*), the dispatched operator* and each
of the three multiplication paths — schoolbook, Karatsuba, FFT — produce
the mathematical product of the two operand values, hence all agree. -/
theorem c2_mul_paths (a b : List ℕ) (ha : Integer.Norm a) (hb : Integer.Norm b)
    (hlen : a.length ≤ b.length) :
    Integer.val (Integer.mul a b) = Integer.val a * Integer.val b ∧
    Integer.val (Integer.sb a b) = Integer.val a * Integer.val b ∧
    Integer.val (Integer.karatsuba_mul a b) = Integer.val a * Integer.val b ∧
    Integer.val (Integer.fft_mul a b) = Integer.val a * Integer.val b :=
  ⟨(Integer.mul_spec a b ha hb).1, (Integer.sb_spec a b).1,
   (Integer.karatsuba_mul_spec a b ha hb hlen).1, (Integer.fft_mul_spec a b).1⟩

/-- Witness for C2 at a = 30002, b = 6050004. -/
theorem c2_mul_paths_witness :
    Integer.val (Integer.mul [2, 3] [4, 5, 6]) = Integer.val [2, 3] * Integer.val [4, 5, 6] ∧
    Integer.val (Integer.sb [2, 3] [4, 5, 6]) = Integer.val [2, 3] * Integer.val [4, 5, 6] ∧
    Integer.val (Integer.karatsuba_mul [2, 3] [4, 5, 6])
        = Integer.val [2, 3] * Integer.val [4, 5, 6] ∧
    Integer.val (Integer.fft_mul [2, 3] [4, 5, 6])
        = Integer.val [2, 3] * Integer.val [4, 5, 6] :=
  c2_mul_paths [2, 3] [4, 5, 6] (by decide) (by decide) (by decide)

/-- Claim C3: for every decimal digit string s with no leading zero (or the
single digit 0), the string constructor parses it without tripping the digit
assertion and to_string gives back exactly s; moreover for every normalized
vector l the serialized output has no leading zero except for the single
digit 0. -/
theorem c3_string_roundtrip (s l : List ℕ) (hd : ∀ d ∈ s, d < 10) (hne : s ≠ [])
    (hlead : s.headD 0 ≠ 0 ∨ s = [0]) (hl : Integer.Norm l) :
    Integer.fromString s = some (Integer.fromDigits s) ∧
    Integer.to_string (Integer.fromDigits s) = s ∧
    (Integer.to_string l = [0] ∨ (Integer.to_string l).headD 0 ≠ 0) := by
  have hall : s.all (· < 10) = true := by
    rw [List.all_eq_true]
    intro x hx
    simpa using hd x hx
  refine ⟨?_, Integer.roundtrip_spec s hd hne hlead, Integer.to_string_no_leading l hl⟩
  simp only [Integer.fromString, hall, if_true]

/-- Witness for C3 at s = "12045", l = the vector for 17. -/
theorem c3_string_roundtrip_witness :
    Integer.fromString [1, 2, 0, 4, 5] = some (Integer.fromDigits [1, 2, 0, 4, 5]) ∧
    Integer.to_string (Integer.fromDigits [1, 2, 0, 4, 5]) = [1, 2, 0, 4, 5] ∧
    (Integer.to_string [17] = [0] ∨ (Integer.to_string [17]).headD 0 ≠ 0) :=
  c3_string_roundtrip [1, 2, 0, 4, 5] [17] (by decide) (by decide) (by decide) (by decide)

/-- Claim C4: every public operation returns a normalized vector: non-empty,
last limb non-zero unless the value is zero (then the single limb 0), every
limb below BASE.  Covered: construction from a scalar (init) and from a
digit string (fromDigits), addition, subtraction (under the documented
precondition b <= a), multiplication (all paths, via mul), scalar
multiplication, division and modulo (both operands and the scalar fast
path), shift, range, increment and decrement (under the documented
precondition a >= 1). -/
theorem c4_invariants (est : List ℕ → List ℕ → ℕ) (a b sd : List ℕ) (x s p i j : ℕ)
    (ha : Integer.Norm a) (hb : Integer.Norm b) (hsd : ∀ d ∈ sd, d < 10)
    (hle : Integer.val b ≤ Integer.val a) (hop : 0 < Integer.val b)
    (h1 : 1 ≤ Integer.val a) (hsp : 0 < s) (hs64 : s < Integer.W64) :
    Integer.Norm (Integer.init x) ∧
    Integer.Norm (Integer.fromDigits sd) ∧
    Integer.Norm (Integer.add a b) ∧
    Integer.Norm (Integer.sub a b) ∧
    Integer.Norm (Integer.mul a b) ∧
    Integer.Norm (Integer.mulScalar a s) ∧
    Integer.Norm (Integer.divI est a b) ∧
    Integer.Norm (Integer.modI est a b) ∧
    Integer.Norm (Integer.divScalar est a s) ∧
    Integer.Norm (Integer.shl a p) ∧
    Integer.Norm (Integer.rangeI a i j) ∧
    Integer.Norm (Integer.incI a) ∧
    Integer.Norm (Integer.decI a) := by
  obtain ⟨hi1v, hi1n⟩ := Integer.init_spec 1
  obtain ⟨hqid, hqlt, hqn, hrn⟩ := Integer.div_mod_spec est a b ha hb hop
  refine ⟨(Integer.init_spec x).2, (Integer.fromDigits_spec sd hsd).2,
    (Integer.add_spec a b ha.lt hb.lt).2, (Integer.sub_spec a b ha.lt hb.lt hle).2,
    (Integer.mul_spec a b ha hb).2, (Integer.mulScalar_spec a s ha).2,
    hqn, hrn, (Integer.divModScalar_spec est a s ha hsp hs64).2.2,
    Integer.Norm_shl a p ha.lt, Integer.Norm_rangeI a i j ha.lt, ?_, ?_⟩
  · exact (Integer.add_spec a (Integer.init 1) ha.lt hi1n.lt).2
  · refine (Integer.sub_spec a (Integer.init 1) ha.lt hi1n.lt ?_).2
    rw [hi1v]
    exact h1

/-- Witness for C4 at a = 30005, b = 10002, sd = "42", x = 123, s = 7,
p = 2, i = 0, j = 1, with the constant-zero estimator. -/
theorem c4_invariants_witness :
    Integer.Norm (Integer.init 123) ∧
    Integer.Norm (Integer.fromDigits [4, 2]) ∧
    Integer.Norm (Integer.add [5, 3] [2, 1]) ∧
    Integer.Norm (Integer.sub [5, 3] [2, 1]) ∧
    Integer.Norm (Integer.mul [5, 3] [2, 1]) ∧
    Integer.Norm (Integer.mulScalar [5, 3] 7) ∧
    Integer.Norm (Integer.divI (fun _ _ => 0) [5, 3] [2, 1]) ∧
    Integer.Norm (Integer.modI (fun _ _ => 0) [5, 3] [2, 1]) ∧
    Integer.Norm (Integer.divScalar (fun _ _ => 0) [5, 3] 7) ∧
    Integer.Norm (Integer.shl [5, 3] 2) ∧
    Integer.Norm (Integer.rangeI [5, 3] 0 1) ∧
    Integer.Norm (Integer.incI [5, 3]) ∧
    Integer.Norm (Integer.decI [5, 3]) :=
  c4_invariants (fun _ _ => 0) [5, 3] [2, 1] [4, 2] 123 7 2 0 1 (by decide) (by decide)
    (by decide) (by decide) (by decide) (by decide) (by decide) (by decide)

/-- Claim C5: compare returns -1, 0 or +1, its sign decides the numeric
order of the values of normalized vectors, and for all such a and b exactly
one of <, ==, > holds.  Consistency with decimal-string order follows from
the value characterization together with the round-trip of C3. -/
theorem c5_compare_order (a b : List ℕ) (ha : Integer.Norm a) (hb : Integer.Norm b) :
    (Integer.compare a b = -1 ∨ Integer.compare a b = 0 ∨ Integer.compare a b = 1) ∧
    (Integer.compare a b < 0 ↔ Integer.val a < Integer.val b) ∧
    (Integer.compare a b = 0 ↔ Integer.val a = Integer.val b) ∧
    (0 < Integer.compare a b ↔ Integer.val b < Integer.val a) ∧
    ((Integer.ltI a b ∧ ¬ Integer.eqI a b ∧ ¬ Integer.gtI a b) ∨
     (¬ Integer.ltI a b ∧ Integer.eqI a b ∧ ¬ Integer.gtI a b) ∨
     (¬ Integer.ltI a b ∧ ¬ Integer.eqI a b ∧ Integer.gtI a b)) := by
  refine ⟨?_, Integer.compare_neg_iff a b ha hb, Integer.compare_zero_iff a b ha hb,
    Integer.compare_pos_iff a b ha hb, ?_⟩
  · rcases Integer.compare_tri a b ha hb with ⟨h1, _⟩ | ⟨h1, _⟩ | ⟨h1, _⟩
    · exact Or.inl h1
    · exact Or.inr (Or.inl h1)
    · exact Or.inr (Or.inr h1)
  · rcases Integer.compare_tri a b ha hb with ⟨h1, _⟩ | ⟨h1, _⟩ | ⟨h1, _⟩
    · left
      unfold Integer.ltI Integer.eqI Integer.gtI
      rw [h1]
      norm_num
    · right; left
      unfold Integer.ltI Integer.eqI Integer.gtI
      rw [h1]
      norm_num
    · right; right
      unfold Integer.ltI Integer.eqI Integer.gtI
      rw [h1]
      norm_num

/-- Witness for C5 at a = 5, b = 7. -/
theorem c5_compare_order_witness :
    (Integer.compare [5] [7] = -1 ∨ Integer.compare [5] [7] = 0
        ∨ Integer.compare [5] [7] = 1) ∧
    (Integer.compare [5] [7] < 0 ↔ Integer.val [5] < Integer.val [7]) ∧
    (Integer.compare [5] [7] = 0 ↔ Integer.val [5] = Integer.val [7]) ∧
    (0 < Integer.compare [5] [7] ↔ Integer.val [7] < Integer.val [5]) ∧
    ((Integer.ltI [5] [7] ∧ ¬ Integer.eqI [5] [7] ∧ ¬ Integer.gtI [5] [7]) ∨
     (¬ Integer.ltI [5] [7] ∧ Integer.eqI [5] [7] ∧ ¬ Integer.gtI [5] [7]) ∨
     (¬ Integer.ltI [5] [7] ∧ ¬ Integer.eqI [5] [7] ∧ Integer.gtI [5] [7])) :=
  c5_compare_order [5] [7] (by decide) (by decide)

/-- Claim C6 (amended): after prepare_roots has grown the table, for every
power of two k = 2 ^ l covered by the table and every i < k the cached root
roots[k + i] equals exp(i_unit * pi * i / k) — not exp(i_unit * pi * (2i+1) / k)
as the spec states, which is the value of the directly evaluated odd entries
only, and only at their own offsets 2t+1 with t the loop counter.  The
growth statement is as the spec says: even positions are copied from the
previous layer, so roots[2j] equals the previous table's roots[j]. -/
theorem c6_twiddle_roots (L l i j : ℕ) (hl : l ≤ L) (hi : i < 2 ^ l)
    (hj : j < 2 ^ (L + 1)) :
    (FFT.roots_table L).getD (2 ^ l + i) 0
        = Complex.exp ((Real.pi * i / 2 ^ l : ℝ) * Complex.I) ∧
    (FFT.roots_table (L + 1)).getD (2 * j) 0 = (FFT.roots_table L).getD j 0 :=
  ⟨FFT.roots_table_getD L l i hl hi, FFT.roots_table_evens L j hj⟩

/-- Witness for C6 at L = 1, k = 2 ^ 1, i = 1, j = 3. -/
theorem c6_twiddle_roots_witness :
    (FFT.roots_table 1).getD (2 ^ 1 + 1) 0
        = Complex.exp ((Real.pi * ((1:ℕ):ℝ) / (2:ℝ) ^ (1:ℕ) : ℝ) * Complex.I) ∧
    (FFT.roots_table 2).getD (2 * 3) 0 = (FFT.roots_table 1).getD 3 0 :=
  c6_twiddle_roots 1 1 1 3 (le_refl 1) (by norm_num) (by norm_num)

/-- Counterexample for C6 as frozen: at k = 2, i = 1 the cached root
roots[k + i] = roots[3] is exp(i_unit * pi / 2) = I, but the spec's formula
exp(i_unit * pi * (2 * 1 + 1) / 2) evaluates to -I. -/
theorem c6_twiddle_roots_counterexample :
    (FFT.roots_table 1).getD (2 + 1) 0 ≠ FFT.spec_root 2 1 := by
  rw [show (2:ℕ) + 1 = 3 from rfl, FFT.roots_table_one_three, FFT.spec_root_two_one]
  intro hcon
  have him := congrArg Complex.im hcon
  rw [Complex.I_im, Complex.neg_im, Complex.I_im] at him
  norm_num at him

/-- Claim C7 (amended): checked_add(p, x) grows the vector with zero fill so
that index p exists, leaves every other limb unchanged, propagates no carry,
and sets the limb at p to (previous value + x) mod 2 ^ 16 — the store is a
static_cast to the uint16_t limb type, so the claim's "previous value plus
x" only holds below 2 ^ 16. -/
theorem c7_checked_add (l : List ℕ) (p x j : ℕ) (hj : j ≠ p) :
    (Integer.checked_add l p x).length = max (p + 1) l.length ∧
    (Integer.checked_add l p x).getD p 0 = (l.getD p 0 + x) % Integer.W16 ∧
    (Integer.checked_add l p x).getD j 0 = l.getD j 0 :=
  ⟨Integer.checked_add_length l p x, Integer.checked_add_getD_self l p x,
   Integer.checked_add_getD_other l p x j hj⟩

/-- Witness for C7 at l = [5], p = 2, x = 7, j = 1. -/
theorem c7_checked_add_witness :
    (Integer.checked_add [5] 2 7).length = max (2 + 1) ([5] : List ℕ).length ∧
    (Integer.checked_add [5] 2 7).getD 2 0 = (([5] : List ℕ).getD 2 0 + 7) % Integer.W16 ∧
    (Integer.checked_add [5] 2 7).getD 1 0 = ([5] : List ℕ).getD 1 0 :=
  c7_checked_add [5] 2 7 1 (by decide)

/-- Counterexample for C7 as frozen: adding amount 2 ^ 16 at position 0 of
the vector [0] stores (0 + 65536) mod 2 ^ 16 = 0, not the claimed previous
value plus amount. -/
theorem c7_checked_add_counterexample :
    ¬ ((Integer.checked_add [0] 0 65536).getD 0 0 = ([0] : List ℕ).getD 0 0 + 65536) := by
  decide

/-- Claim C8: the scalar fast paths agree with the general value-by-value
operations: a * s equals a * integer(s) (as vectors) for every unsigned
64-bit scalar s including s = 0 (the dedicated zero branch of
operator*(uint64_t)), and for every positive s, a / s equals a / integer(s)
(as vectors) while both the remainder of div_mod(uint64_t) and
operator%(uint64_t) (including its BASE mod s == 0 shortcut) equal the value
of a mod integer(s), for every normalized a and every digit estimator. -/
theorem c8_scalar_ops (est : List ℕ → List ℕ → ℕ) (a : List ℕ) (s : ℕ)
    (ha : Integer.Norm a) (hs64 : s < Integer.W64) :
    Integer.mulScalar a s = Integer.mul a (Integer.init s) ∧
    (0 < s →
      Integer.divScalar est a s = Integer.divI est a (Integer.init s) ∧
      (Integer.divModScalar est a s).2
          = Integer.val (Integer.modI est a (Integer.init s)) ∧
      Integer.modScalar est a s
          = Integer.val (Integer.modI est a (Integer.init s))) := by
  obtain ⟨hiv, hin⟩ := Integer.init_spec s
  obtain ⟨hgmv, hgmn⟩ := Integer.mul_spec a (Integer.init s) ha hin
  constructor
  · by_cases hs0 : s = 0
    · subst hs0
      have hml : Integer.mulScalar a 0 = [0] := rfl
      rw [hml]
      symm
      apply Integer.val_zero_norm _ hgmn
      rw [hgmv, hiv]
      exact Nat.mul_zero _
    · obtain ⟨hmv, hmn⟩ := Integer.mulScalar_spec a s ha
      apply Integer.val_inj _ _ hmn hgmn
      rw [hmv, hgmv, hiv]
  · intro hsp
    have hop : 0 < Integer.val (Integer.init s) := by rw [hiv]; exact hsp
    obtain ⟨hqid, hqlt, hqn, hrn⟩ := Integer.div_mod_spec est a (Integer.init s) ha hin hop
    rw [hiv] at hqid hqlt
    have hsh : Integer.val (Integer.div_mod est a (Integer.init s)).1 * s
        + Integer.val (Integer.div_mod est a (Integer.init s)).2
        = s * Integer.val (Integer.div_mod est a (Integer.init s)).1
          + Integer.val (Integer.div_mod est a (Integer.init s)).2 := by
      ring
    have hgq : Integer.val (Integer.div_mod est a (Integer.init s)).1
        = Integer.val a / s := by
      rw [← hqid, hsh, Nat.mul_add_div hsp, Nat.div_eq_of_lt hqlt]
      omega
    have hgr : Integer.val (Integer.div_mod est a (Integer.init s)).2
        = Integer.val a % s := by
      rw [← hqid, hsh, Nat.mul_add_mod, Nat.mod_eq_of_lt hqlt]
    obtain ⟨hdq, hdr, hdn⟩ := Integer.divModScalar_spec est a s ha hsp hs64
    refine ⟨?_, ?_, ?_⟩
    · apply Integer.val_inj _ _ hdn hqn
      rw [hdq, hgq]
    · rw [hdr]
      exact hgr.symm
    · rw [Integer.modScalar_spec est a s ha hsp hs64]
      exact hgr.symm

/-- Witness for C8 at a = 30005, s = 7, with the constant-zero estimator,
discharging the positivity premise of the division conjuncts. -/
theorem c8_scalar_ops_witness :
    Integer.mulScalar [5, 3] 7 = Integer.mul [5, 3] (Integer.init 7) ∧
    Integer.divScalar (fun _ _ => 0) [5, 3] 7
        = Integer.divI (fun _ _ => 0) [5, 3] (Integer.init 7) ∧
    (Integer.divModScalar (fun _ _ => 0) [5, 3] 7).2
        = Integer.val (Integer.modI (fun _ _ => 0) [5, 3] (Integer.init 7)) ∧
    Integer.modScalar (fun _ _ => 0) [5, 3] 7
        = Integer.val (Integer.modI (fun _ _ => 0) [5, 3] (Integer.init 7)) :=
  ⟨(c8_scalar_ops (fun _ _ => 0) [5, 3] 7 (by decide) (by decide)).1,
   (c8_scalar_ops (fun _ _ => 0) [5, 3] 7 (by decide) (by decide)).2 (by decide)⟩

/-- Claim C9: for every limb vector, the explicit conversion to uint64_t
equals the numeric value reduced modulo 2 ^ 64 (Horner evaluation from the
most significant limb with unsigned wraparound) — unconditionally, overflow
values included — and in particular a value within uint64 range converts
exactly. -/
theorem c9_to_uint64_conversion (l : List ℕ) :
    Integer.to_uint64 l = Integer.val l % Integer.W64 ∧
    (Integer.val l < Integer.W64 → Integer.to_uint64 l = Integer.val l) := by
  refine ⟨Integer.to_uint64_spec l, fun h => ?_⟩
  rw [Integer.to_uint64_spec l]
  exact Nat.mod_eq_of_lt h

/-- Witness for C9 at the vector for 12345, discharging the in-range premise
of the exactness conjunct. -/
theorem c9_to_uint64_conversion_witness :
    Integer.to_uint64 [2345, 1] = Integer.val [2345, 1] % Integer.W64 ∧
    Integer.to_uint64 [2345, 1] = Integer.val [2345, 1] :=
  ⟨(c9_to_uint64_conversion [2345, 1]).1,
   (c9_to_uint64_conversion [2345, 1]).2 (by decide)⟩

/-- Claim C10: constructing from the empty string succeeds without
triggering the digit assertion (fromString returns some) and yields the
canonical zero: the single limb 0, normalized, whose to_string is "0".
The pre-size max(ceil(0/4), 1) = 1 keeps one zero limb and the character
loop never runs. -/
theorem c10_empty_string :
    Integer.fromString [] = some (Integer.fromDigits []) ∧
    Integer.fromDigits [] = [0] ∧
    Integer.to_string (Integer.fromDigits []) = [0] ∧
    Integer.Norm (Integer.fromDigits []) := by
  decide
